import Mathlib

/-!
Feature-based (Beier–Neely) morphing: a shallow embedding of `main.cpp`.

The C++ program works on `double`s.  The embedding below is over exact real
arithmetic: `double` becomes `ℝ`, `M_PI` becomes `Real.pi`, `norm`, `cos`, `sin`
and `atan2` become their real counterparts, and `int` becomes `ℤ`/`ℕ`.  Stateful
code (the accumulators of `warpPoint`, the member angles that `interpolateLine`
overwrites, the output raster of `warpImage`) is rendered by explicit state passing.
Raster reads outside the raster (`img.at<Vec3b>(row, col)`) are rendered as `none`.
Integers are unbounded: the only `int`s of the program are raster sizes, loop counters and
the floor and ceiling of a sample coordinate.

Division: the arithmetic definitions (`Point2d.divr`, `computeU`, `computeV`, `computePoint`,
`warpPoint`) give the quotient of the reals and are what the code computes whenever the
divisor is not zero.  On a zero divisor the code does not get a number (`0.0 / 0.0` is NaN,
and it spreads through every later sum); that case is tracked apart, by `warpStepFinite`,
`warpSumsChecked` and `warpPointChecked`, and `warpImage` is built on the checked mapper: a
NaN sample coordinate is not clamped by `clipPoint` and makes `bilinearColor` read outside
the raster, which is rendered as `none`.
-/

namespace Morph

noncomputable section

/-! ## Points (`cv::Point2d`) -/

/-- The type `cv::Point2d`: two coordinates. -/
@[ext] structure Point2d where
  x : ℝ
  y : ℝ

namespace Point2d

/-- The operator `a + b` on points. -/
def add (a b : Point2d) : Point2d := ⟨a.x + b.x, a.y + b.y⟩

/-- The operator `a - b` on points. -/
def sub (a b : Point2d) : Point2d := ⟨a.x - b.x, a.y - b.y⟩

/-- The operator `c * a` (scalar on the left). -/
def smul (c : ℝ) (a : Point2d) : Point2d := ⟨c * a.x, c * a.y⟩

/-- The operator `a * c` (scalar on the right). -/
def mulr (a : Point2d) (c : ℝ) : Point2d := ⟨a.x * c, a.y * c⟩

/-- The operator `a / c`, for `c ≠ 0` (at `c = 0` the code has no number; `warpPointChecked`
keeps that case apart). -/
def divr (a : Point2d) (c : ℝ) : Point2d := ⟨a.x / c, a.y / c⟩

/-- The method `a.dot(b)`. -/
def dot (a b : Point2d) : ℝ := a.x * b.x + a.y * b.y

/-- The function `cv::norm(a)`: the Euclidean length `sqrt(x*x + y*y)`. -/
def norm (a : Point2d) : ℝ := Real.sqrt (a.x * a.x + a.y * a.y)

end Point2d

/-- The function `atan2(y, x)` of `math.h`: the argument of `x + iy`, in `(-π, π]`,
with `atan2(0, 0) = 0`. -/
def atan2 (y x : ℝ) : ℝ := Complex.arg ⟨x, y⟩

/-! ## Weight parameters -/

/-- The macro `PARAM_A`. -/
def PARAM_A : ℕ := 1
/-- The macro `PARAM_B`. -/
def PARAM_B : ℕ := 2
/-- The macro `PARAM_P`. -/
def PARAM_P : ℕ := 2

/-! ## `class FeatureLine` -/

/-- The data members of `class FeatureLine`. -/
@[ext] structure FeatureLine where
  P : Point2d
  Q : Point2d
  M : Point2d
  length : ℝ
  angle : ℝ

namespace FeatureLine

/-- The constructor `FeatureLine(Point2d start, Point2d end)`. -/
def fromPoints (start stop : Point2d) : FeatureLine :=
  let P := start
  let Q := stop
  let M := Point2d.divr (Point2d.add P Q) 2
  let diff := Point2d.sub Q P
  { P := P, Q := Q, M := M, length := Point2d.norm diff, angle := atan2 diff.y diff.x }

/-- The constructor `FeatureLine(Point2d middle, double length, double angle)`. -/
def fromPolar (middle : Point2d) (length angle : ℝ) : FeatureLine :=
  let deltaX := length / 2 * Real.cos angle
  let deltaY := length / 2 * Real.sin angle
  { P := ⟨middle.x - deltaX, middle.y - deltaY⟩
    Q := ⟨middle.x + deltaX, middle.y + deltaY⟩
    M := middle, length := length, angle := angle }

/-- The method `computePerpendicular()`. -/
def computePerpendicular (l : FeatureLine) : Point2d :=
  let QP := Point2d.sub l.Q l.P
  ⟨QP.y, -QP.x⟩

/-- The method `computeU(X)`, for `length ≠ 0` (a zero length is kept apart by
`warpStepFinite`). -/
def computeU (l : FeatureLine) (X : Point2d) : ℝ :=
  Point2d.dot (Point2d.sub X l.P) (Point2d.sub l.Q l.P) / (l.length * l.length)

/-- The method `computeV(X)`, for `length ≠ 0` (a zero length is kept apart by
`warpStepFinite`). -/
def computeV (l : FeatureLine) (X : Point2d) : ℝ :=
  Point2d.dot (Point2d.sub X l.P) l.computePerpendicular / l.length

/-- The method `computePoint(u, v)`, for `length ≠ 0` (a zero length is kept apart by
`warpStepFinite`). -/
def computePoint (l : FeatureLine) (u v : ℝ) : Point2d :=
  Point2d.add (Point2d.add l.P (Point2d.smul u (Point2d.sub l.Q l.P)))
    (Point2d.divr (Point2d.smul v l.computePerpendicular) l.length)

/-- The distance `dist` chosen by the three-way branch of `computeWeight(X)`. -/
def weightDist (l : FeatureLine) (X : Point2d) : ℝ :=
  let u := l.computeU X
  if u > 1 then Point2d.norm (Point2d.sub X l.Q)
  else if u < 0 then Point2d.norm (Point2d.sub X l.P)
  else |l.computeV X|

/-- The method `computeWeight(X)`. -/
def computeWeight (l : FeatureLine) (X : Point2d) : ℝ :=
  (l.length ^ PARAM_P / ((PARAM_A : ℝ) + l.weightDist X)) ^ PARAM_B

end FeatureLine

/-! ## `class FeatureLinePair` -/

/-- The data members of `class FeatureLinePair`. -/
@[ext] structure FeatureLinePair where
  source : FeatureLine
  dest : FeatureLine

/-- The loop `while (a - b > M_PI) b += M_PI;`: the value of `b` when it exits. -/
def addPiWhile (a b : ℝ) : ℝ :=
  if a - b > Real.pi then addPiWhile a (b + Real.pi) else b
termination_by Int.toNat ⌈(a - b) / Real.pi⌉
decreasing_by
  rename_i h
  have hpi : 0 < Real.pi := Real.pi_pos
  have e : (a - (b + Real.pi)) / Real.pi = (a - b) / Real.pi - 1 := by
    field_simp; ring
  have h1 : 1 < (a - b) / Real.pi := by
    rw [lt_div_iff₀ hpi]; linarith
  have h2 : (1 : ℤ) < ⌈(a - b) / Real.pi⌉ := by
    have := Int.le_ceil ((a - b) / Real.pi)
    have h3 : ((1 : ℤ) : ℝ) < ((⌈(a - b) / Real.pi⌉ : ℤ) : ℝ) := by
      push_cast; linarith
    exact_mod_cast h3
  rw [e, Int.ceil_sub_one]
  omega

/-- The number of times the loop `while (a - b > M_PI) b += M_PI;` runs its body. -/
def addPiCount (a b : ℝ) : ℕ :=
  if a - b > Real.pi then addPiCount a (b + Real.pi) + 1 else 0
termination_by Int.toNat ⌈(a - b) / Real.pi⌉
decreasing_by
  rename_i h
  have hpi : 0 < Real.pi := Real.pi_pos
  have e : (a - (b + Real.pi)) / Real.pi = (a - b) / Real.pi - 1 := by
    field_simp; ring
  have h1 : 1 < (a - b) / Real.pi := by
    rw [lt_div_iff₀ hpi]; linarith
  have h2 : (1 : ℤ) < ⌈(a - b) / Real.pi⌉ := by
    have := Int.le_ceil ((a - b) / Real.pi)
    have h3 : ((1 : ℤ) : ℝ) < ((⌈(a - b) / Real.pi⌉ : ℤ) : ℝ) := by
      push_cast; linarith
    exact_mod_cast h3
  rw [e, Int.ceil_sub_one]
  omega

namespace FeatureLinePair

/-- The method `interpolateLine(alpha)`.  The two loops overwrite the member angles
`dest.angle` and `source.angle`, so the result carries the pair as it is left after
the call next to the returned line. -/
def interpolateLine (pr : FeatureLinePair) (alpha : ℝ) : FeatureLine × FeatureLinePair :=
  let dest := { pr.dest with angle := addPiWhile pr.source.angle pr.dest.angle }
  let source := { pr.source with angle := addPiWhile dest.angle pr.source.angle }
  let M := Point2d.add (Point2d.smul (1 - alpha) source.M) (Point2d.smul alpha dest.M)
  let length := (1 - alpha) * source.length + alpha * dest.length
  let angle := (1 - alpha) * source.angle + alpha * dest.angle
  (FeatureLine.fromPolar M length angle, { source := source, dest := dest })

end FeatureLinePair

/-! ## Rasters (`cv::Mat` of type `CV_8UC3`) and colours -/

/-- The type `uchar`. -/
abbrev uchar := Fin 256

/-- The type `cv::Vec3b`: three `uchar` channels. -/
abbrev Vec3b := Fin 3 → uchar

/-- The type `cv::Vec3d`: three `double` channels. -/
abbrev Vec3d := Fin 3 → ℝ

/-- The function `cvRound` of OpenCV: the nearest integer, a tie going to the even
neighbour. -/
def cvRound (v : ℝ) : ℤ :=
  let f := ⌊v⌋
  if v - f < 1 / 2 then f
  else if v - f > 1 / 2 then f + 1
  else if f % 2 = 0 then f else f + 1

/-- The function `saturate_cast<uchar>(int)` of OpenCV. -/
def saturate_cast_int (iv : ℤ) : uchar :=
  if h : 0 ≤ iv ∧ iv ≤ 255 then ⟨iv.toNat, by omega⟩
  else if iv > 0 then 255 else 0

/-- The function `saturate_cast<uchar>(double)` of OpenCV. -/
def saturate_cast (v : ℝ) : uchar := saturate_cast_int (cvRound v)

/-- The conversion of a `Vec3b` to a `Vec3d`. -/
def Vec3b.toVec3d (c : Vec3b) : Vec3d := fun k => ((c k : ℕ) : ℝ)

/-- The conversion of a `Vec3d` to a `Vec3b`: `saturate_cast<uchar>` on every channel. -/
def Vec3d.toVec3b (c : Vec3d) : Vec3b := fun k => saturate_cast (c k)

/-- A raster `cv::Mat` of 3-channel bytes: its size and the colour stored at each
(row, column). -/
@[ext] structure Mat where
  rows : ℕ
  cols : ℕ
  data : ℕ → ℕ → Vec3b

namespace Mat

/-- The read `img.at<Vec3b>(row, col)`; `none` outside the raster. -/
def at_ (img : Mat) (row col : ℤ) : Option Vec3b :=
  if 0 ≤ row ∧ row < img.rows ∧ 0 ≤ col ∧ col < img.cols then
    some (img.data row.toNat col.toNat)
  else none

/-- The write `out.at<Vec3b>(row, col) = color`. -/
def set (out : Mat) (row col : ℕ) (color : Vec3b) : Mat :=
  { out with data := fun r c => if r = row ∧ c = col then color else out.data r c }

/-- The constructor `Mat(size, CV_8UC3)`: a raster of the given size (its contents are
unspecified in C++; every one of its pixels is overwritten before it is read). -/
def create (rows cols : ℕ) : Mat := ⟨rows, cols, fun _ _ _ => 0⟩

end Mat

/-! ## Clamping and bilinear sampling -/

/-- The function `clipPoint(p, rows, cols)`. -/
def clipPoint (p : Point2d) (rows cols : ℤ) : Point2d :=
  let x := if p.x < 0 then 0 else if p.x > ((cols - 1 : ℤ) : ℝ) then ((cols - 1 : ℤ) : ℝ) else p.x
  let y := if p.y < 0 then 0 else if p.y > ((rows - 1 : ℤ) : ℝ) then ((rows - 1 : ℤ) : ℝ) else p.y
  ⟨x, y⟩

/-- The function `bilinearColor(img, p)`. -/
def bilinearColor (img : Mat) (p : Point2d) : Option Vec3b :=
  let x_floor : ℤ := ⌊p.x⌋
  let y_floor : ℤ := ⌊p.y⌋
  let x_ceil : ℤ := ⌈p.x⌉
  let y_ceil : ℤ := ⌈p.y⌉
  let u : ℝ := p.x - x_floor
  let v : ℝ := p.y - y_floor
  (img.at_ y_floor x_floor).bind fun topLeft =>
  (img.at_ y_floor x_ceil).bind fun topRight =>
  (img.at_ y_ceil x_floor).bind fun bottomLeft =>
  (img.at_ y_ceil x_ceil).bind fun bottomRight =>
  some (Vec3d.toVec3b
    ((1 - v) • ((1 - u) • topLeft.toVec3d + u • topRight.toVec3d)
      + v • ((1 - u) • bottomLeft.toVec3d + u • bottomRight.toVec3d)))

/-- The four (row, column) positions that `bilinearColor(img, p)` reads. -/
def bilinearReads (p : Point2d) : List (ℤ × ℤ) :=
  [(⌊p.y⌋, ⌊p.x⌋), (⌊p.y⌋, ⌈p.x⌉), (⌈p.y⌉, ⌊p.x⌋), (⌈p.y⌉, ⌈p.x⌉)]

/-! ## The mapper `warpPoint` -/

/-- The four accumulators of `warpPoint`. -/
structure WarpAcc where
  p_source_sum : Point2d
  p_dest_sum : Point2d
  w_source_sum : ℝ
  w_dest_sum : ℝ

/-- One iteration of the loop of `warpPoint`, for the pair `featureLinePairs[i]`. -/
def warpStep (p : Point2d) (alpha : ℝ) (acc : WarpAcc) (pair : FeatureLinePair) : WarpAcc :=
  let sourceLine := pair.source
  let r := pair.interpolateLine alpha
  let middleLine := r.1
  let destLine := r.2.dest
  let p_source := sourceLine.computePoint (middleLine.computeU p) (middleLine.computeV p)
  let p_dest := destLine.computePoint (middleLine.computeU p) (middleLine.computeV p)
  let w_source := sourceLine.computeWeight p_source
  let w_dest := destLine.computeWeight p_dest
  { p_source_sum := Point2d.add acc.p_source_sum (Point2d.mulr p_source w_source)
    w_source_sum := acc.w_source_sum + w_source
    p_dest_sum := Point2d.add acc.p_dest_sum (Point2d.mulr p_dest w_dest)
    w_dest_sum := acc.w_dest_sum + w_dest }

/-- The accumulators of `warpPoint` when its loop over the pairs exits. -/
def warpSums (p : Point2d) (featureLinePairs : List FeatureLinePair) (alpha : ℝ) : WarpAcc :=
  featureLinePairs.foldl (warpStep p alpha) ⟨⟨0, 0⟩, ⟨0, 0⟩, 0, 0⟩

/-- The arithmetic of `warpPoint(p, featureLinePairs, alpha)`; the two elements of the vector
it returns are the two components of the result.  It is what the code returns whenever no
divisor is zero, see `warpPointChecked`. -/
def warpPoint (p : Point2d) (featureLinePairs : List FeatureLinePair) (alpha : ℝ) :
    Point2d × Point2d :=
  let acc := warpSums p featureLinePairs alpha
  let p_src := Point2d.divr acc.p_source_sum acc.w_source_sum
  let p_dest := Point2d.divr acc.p_dest_sum acc.w_dest_sum
  (p_src, p_dest)

/-- No divisor of one run of the loop body of `warpPoint` is zero: `computeU` and `computeV`
divide by the length of the interpolated line, the two calls of `computePoint` (and of
`computeWeight`, through `computeU`) by the lengths of the source and of the dest line. -/
def warpStepFinite (alpha : ℝ) (pair : FeatureLinePair) : Prop :=
  (pair.interpolateLine alpha).1.length ≠ 0 ∧ pair.source.length ≠ 0 ∧
    (pair.interpolateLine alpha).2.dest.length ≠ 0

/-- The accumulators of `warpPoint` when its loop exits, as numbers: `none` when some run of
the body divided by zero (the accumulators are then NaN in the code). -/
def warpSumsChecked (p : Point2d) (featureLinePairs : List FeatureLinePair) (alpha : ℝ) :
    Option WarpAcc :=
  @ite _ (∀ pair ∈ featureLinePairs, warpStepFinite alpha pair) (Classical.propDecidable _)
    (some (warpSums p featureLinePairs alpha)) none

/-- The function `warpPoint(p, featureLinePairs, alpha)` with its zero divisors kept apart:
`none` when the accumulators are not numbers or one of the two weight sums, by which the
point sums are divided, is zero (the returned points are then NaN in the code). -/
def warpPointChecked (p : Point2d) (featureLinePairs : List FeatureLinePair) (alpha : ℝ) :
    Option (Point2d × Point2d) :=
  (warpSumsChecked p featureLinePairs alpha).bind fun acc =>
    if acc.w_source_sum = 0 ∨ acc.w_dest_sum = 0 then none
    else some (Point2d.divr acc.p_source_sum acc.w_source_sum,
      Point2d.divr acc.p_dest_sum acc.w_dest_sum)

/-! ## The compositor `warpImage` -/

/-- The loop `for (int k = 0; k < n; k++) s = body(k, s)`, stopping at the first
failure. -/
def forLoop {σ : Type} (n : ℕ) (body : ℕ → σ → Option σ) (s : σ) : Option σ :=
  match n with
  | 0 => some s
  | k + 1 => (forLoop k body s).bind (body k)

/-- The colour that the body of the loops of `warpImage` computes for the pixel in
column `i` and row `j`; `none` when a read is outside the raster, which is what happens when
`warpPoint` returns NaN points (`clipPoint` leaves NaN as it is). -/
def warpPixel (sourceImg destImg : Mat) (rows cols : ℕ) (featureLinePairs : List FeatureLinePair)
    (alpha : ℝ) (i j : ℕ) : Option Vec3b :=
  let p : Point2d := ⟨(i : ℝ), (j : ℝ)⟩
  (warpPointChecked p featureLinePairs alpha).bind fun points =>
  let p_src := clipPoint points.1 rows cols
  let p_dest := clipPoint points.2 rows cols
  (bilinearColor sourceImg p_src).bind fun color_src =>
  (bilinearColor destImg p_dest).bind fun color_dest =>
  some (Vec3d.toVec3b ((1 - alpha) • color_src.toVec3d + alpha • color_dest.toVec3d))

/-- The function `warpImage(source, dest, featureLinePairs, alpha)`. -/
def warpImage (source dest : Mat) (featureLinePairs : List FeatureLinePair) (alpha : ℝ) :
    Option Mat :=
  let sourceImg := source
  let destImg := dest
  let out := Mat.create sourceImg.rows sourceImg.cols
  forLoop out.cols (fun i out1 =>
    forLoop out.rows (fun j out2 =>
      (warpPixel sourceImg destImg out.rows out.cols featureLinePairs alpha i j).bind
        fun color => some (out2.set j i color)) out1) out

/-! ## Example inputs -/

/-- A 4×4 raster, every pixel `(255, 0, 0)`. -/
def redRaster : Mat := ⟨4, 4, fun _ _ => ![255, 0, 0]⟩

/-- A 4×4 raster, every pixel `(0, 0, 255)`. -/
def blueRaster : Mat := ⟨4, 4, fun _ _ => ![0, 0, 255]⟩

/-- A 2×2 raster: row 0 is `(255, 255, 255)`, row 1 is `(0, 0, 0)`. -/
def twoRowRaster : Mat := ⟨2, 2, fun r _ _ => if r = 0 then 255 else 0⟩

/-- One line from `(0,0)` to `(3,3)` drawn in both images. -/
def diagonalPair : FeatureLinePair :=
  ⟨FeatureLine.fromPoints ⟨0, 0⟩ ⟨3, 3⟩, FeatureLine.fromPoints ⟨0, 0⟩ ⟨3, 3⟩⟩

/-- The source line runs from `(0,1)` to `(0,0)` (angle `-π/2`), the dest line from `(1,0)`
to `(0,0)` (angle `π`): the two angles are `3π/2` apart. -/
def flippedPair : FeatureLinePair :=
  ⟨FeatureLine.fromPoints ⟨0, 1⟩ ⟨0, 0⟩, FeatureLine.fromPoints ⟨1, 0⟩ ⟨0, 0⟩⟩

/-- The dest line is the source line from `(0,0)` to `(2,0)` turned by 180 degrees about
its midpoint. -/
def halfTurnPair : FeatureLinePair :=
  ⟨FeatureLine.fromPoints ⟨0, 0⟩ ⟨2, 0⟩, FeatureLine.fromPoints ⟨2, 0⟩ ⟨0, 0⟩⟩

/-- The source line is a single point, `(0,0)` to `(0,0)` (a click without a drag); the dest
line runs from `(0,0)` to `(1,0)`. -/
def pointPair : FeatureLinePair :=
  ⟨FeatureLine.fromPoints ⟨0, 0⟩ ⟨0, 0⟩, FeatureLine.fromPoints ⟨0, 0⟩ ⟨1, 0⟩⟩

/-- The source line runs from `(0,0)` to `(2,0)`, the dest line from `(0,0)` to `(1,0)`: at
ratio 2 the interpolated length is `(1 - 2) * 2 + 2 * 1 = 0`. -/
def shrinkPair : FeatureLinePair :=
  ⟨FeatureLine.fromPoints ⟨0, 0⟩ ⟨2, 0⟩, FeatureLine.fromPoints ⟨0, 0⟩ ⟨1, 0⟩⟩

/-! ## Basic facts about points and lines -/

theorem Point2d.norm_mul_self (a : Point2d) :
    Point2d.norm a * Point2d.norm a = a.x * a.x + a.y * a.y := by
  unfold Point2d.norm
  exact Real.mul_self_sqrt (add_nonneg (mul_self_nonneg _) (mul_self_nonneg _))

theorem Point2d.norm_nonneg (a : Point2d) : 0 ≤ Point2d.norm a := Real.sqrt_nonneg _

theorem Point2d.sub_ne_zero {P Q : Point2d} (h : P ≠ Q) :
    0 < (Q.x - P.x) * (Q.x - P.x) + (Q.y - P.y) * (Q.y - P.y) := by
  have hne : Q.x - P.x ≠ 0 ∨ Q.y - P.y ≠ 0 := by
    by_contra hc
    push_neg at hc
    apply h
    ext
    · linarith [hc.1]
    · linarith [hc.2]
  rcases hne with hx | hy
  · have := mul_self_pos.mpr hx
    nlinarith [mul_self_nonneg (Q.y - P.y)]
  · have := mul_self_pos.mpr hy
    nlinarith [mul_self_nonneg (Q.x - P.x)]

theorem Point2d.norm_sub_pos {P Q : Point2d} (h : P ≠ Q) : 0 < Point2d.norm (Point2d.sub Q P) := by
  unfold Point2d.norm Point2d.sub
  exact Real.sqrt_pos.mpr (Point2d.sub_ne_zero h)

theorem FeatureLine.fromPoints_length_pos {P Q : Point2d} (h : P ≠ Q) :
    0 < (FeatureLine.fromPoints P Q).length :=
  Point2d.norm_sub_pos h

/-- Inverse consistency for any line whose stored length is the distance of its two
distinct endpoints. -/
theorem FeatureLine.computePoint_computeUV_of_length (l : FeatureLine) (X : Point2d)
    (hlen : l.length = Point2d.norm (Point2d.sub l.Q l.P)) (h : l.P ≠ l.Q) :
    l.computePoint (l.computeU X) (l.computeV X) = X := by
  have hpos : 0 < l.length := by rw [hlen]; exact Point2d.norm_sub_pos h
  have hsq : l.length * l.length
      = (l.Q.x - l.P.x) * (l.Q.x - l.P.x) + (l.Q.y - l.P.y) * (l.Q.y - l.P.y) := by
    rw [hlen, Point2d.norm_mul_self]; rfl
  have hne : l.length ≠ 0 := ne_of_gt hpos
  ext
  · simp only [FeatureLine.computePoint, FeatureLine.computeU, FeatureLine.computeV,
      FeatureLine.computePerpendicular, Point2d.add, Point2d.sub, Point2d.smul, Point2d.divr,
      Point2d.dot]
    field_simp
    rw [hsq]; ring
  · simp only [FeatureLine.computePoint, FeatureLine.computeU, FeatureLine.computeV,
      FeatureLine.computePerpendicular, Point2d.add, Point2d.sub, Point2d.smul, Point2d.divr,
      Point2d.dot]
    field_simp
    rw [hsq]; ring

theorem atan2_cos (a : Point2d) :
    Point2d.norm a * Real.cos (atan2 a.y a.x) = a.x := by
  have habs : Complex.abs ⟨a.x, a.y⟩ = Point2d.norm a := by
    rw [Complex.abs_apply, Complex.normSq_mk]; rfl
  by_cases h0 : (⟨a.x, a.y⟩ : ℂ) = 0
  · have hx : a.x = 0 := by simpa using congrArg Complex.re h0
    have hn : Point2d.norm a = 0 := by rw [← habs, h0]; simp
    rw [hn, hx]; simp
  · have hpos : Point2d.norm a ≠ 0 := by
      rw [← habs]; exact (map_ne_zero Complex.abs).mpr h0
    unfold atan2
    rw [Complex.cos_arg h0, habs]
    field_simp

theorem atan2_sin (a : Point2d) :
    Point2d.norm a * Real.sin (atan2 a.y a.x) = a.y := by
  have habs : Complex.abs ⟨a.x, a.y⟩ = Point2d.norm a := by
    rw [Complex.abs_apply, Complex.normSq_mk]; rfl
  by_cases h0 : (⟨a.x, a.y⟩ : ℂ) = 0
  · have hy : a.y = 0 := by simpa using congrArg Complex.im h0
    have hn : Point2d.norm a = 0 := by rw [← habs, h0]; simp
    rw [hn, hy]; simp
  · have hpos : Point2d.norm a ≠ 0 := by
      rw [← habs]; exact (map_ne_zero Complex.abs).mpr h0
    unfold atan2
    rw [Complex.sin_arg, habs]
    field_simp

/-- Rebuilding a line from the midpoint, length and angle that the two-endpoint
constructor derived gives the same line. -/
theorem FeatureLine.fromPolar_fromPoints (P Q : Point2d) :
    FeatureLine.fromPolar (FeatureLine.fromPoints P Q).M (FeatureLine.fromPoints P Q).length
      (FeatureLine.fromPoints P Q).angle = FeatureLine.fromPoints P Q := by
  have hc := atan2_cos (Point2d.sub Q P)
  have hs := atan2_sin (Point2d.sub Q P)
  simp only [Point2d.sub] at hc hs
  ext <;>
    simp only [FeatureLine.fromPolar, FeatureLine.fromPoints, Point2d.add, Point2d.divr,
      Point2d.sub] <;> linarith

theorem addPiWhile_of_le {a b : ℝ} (h : a - b ≤ Real.pi) : addPiWhile a b = b := by
  rw [addPiWhile, if_neg (not_lt.mpr h)]

theorem addPiWhile_of_gt {a b : ℝ} (h : a - b > Real.pi) :
    addPiWhile a b = addPiWhile a (b + Real.pi) := by
  rw [addPiWhile, if_pos h]

theorem FeatureLine.weightDist_nonneg (l : FeatureLine) (X : Point2d) :
    0 ≤ l.weightDist X := by
  unfold FeatureLine.weightDist
  simp only
  split_ifs
  · exact Point2d.norm_nonneg _
  · exact Point2d.norm_nonneg _
  · exact abs_nonneg _

/-- The weight is positive as soon as the stored length is. -/
theorem FeatureLine.computeWeight_pos_of_length (l : FeatureLine) (X : Point2d)
    (hlen : 0 < l.length) : 0 < l.computeWeight X := by
  unfold FeatureLine.computeWeight
  have hd := l.weightDist_nonneg X
  have hden : 0 < ((PARAM_A : ℕ) : ℝ) + l.weightDist X := by
    simp only [PARAM_A, Nat.cast_one]; linarith
  exact pow_pos (div_pos (pow_pos hlen _) hden) _

/-! ### Rounding and saturation -/

theorem cvRound_intCast (n : ℤ) : cvRound (n : ℝ) = n := by
  unfold cvRound
  simp

theorem saturate_cast_natCast (c : uchar) : saturate_cast ((c : ℕ) : ℝ) = c := by
  unfold saturate_cast
  have h : (((c : ℕ) : ℝ)) = (((c : ℕ) : ℤ) : ℝ) := by push_cast; rfl
  rw [h, cvRound_intCast]
  unfold saturate_cast_int
  have hc := c.isLt
  rw [dif_pos (by omega)]
  ext
  simp

theorem Vec3d.toVec3b_toVec3d (c : Vec3b) : Vec3d.toVec3b (Vec3b.toVec3d c) = c := by
  funext k
  simp only [Vec3d.toVec3b, Vec3b.toVec3d]
  exact saturate_cast_natCast (c k)

/-! ### Clamping -/

theorem clipPoint_x_bounds (p : Point2d) (rows cols : ℤ) (hc : 1 ≤ cols) :
    0 ≤ (clipPoint p rows cols).x ∧ (clipPoint p rows cols).x ≤ ((cols - 1 : ℤ) : ℝ) := by
  have h0 : (0 : ℝ) ≤ ((cols - 1 : ℤ) : ℝ) := by exact_mod_cast (by omega : (0 : ℤ) ≤ cols - 1)
  simp only [clipPoint]
  split_ifs with h1 h2
  · exact ⟨le_refl _, h0⟩
  · exact ⟨h0, le_refl _⟩
  · exact ⟨not_lt.mp h1, not_lt.mp h2⟩

theorem clipPoint_y_bounds (p : Point2d) (rows cols : ℤ) (hr : 1 ≤ rows) :
    0 ≤ (clipPoint p rows cols).y ∧ (clipPoint p rows cols).y ≤ ((rows - 1 : ℤ) : ℝ) := by
  have h0 : (0 : ℝ) ≤ ((rows - 1 : ℤ) : ℝ) := by exact_mod_cast (by omega : (0 : ℤ) ≤ rows - 1)
  simp only [clipPoint]
  split_ifs with h1 h2
  · exact ⟨le_refl _, h0⟩
  · exact ⟨h0, le_refl _⟩
  · exact ⟨not_lt.mp h1, not_lt.mp h2⟩

/-- A point that is already inside the raster is left alone by `clipPoint`. -/
theorem clipPoint_of_inside (p : Point2d) (rows cols : ℤ)
    (hx0 : 0 ≤ p.x) (hx1 : p.x ≤ ((cols - 1 : ℤ) : ℝ))
    (hy0 : 0 ≤ p.y) (hy1 : p.y ≤ ((rows - 1 : ℤ) : ℝ)) : clipPoint p rows cols = p := by
  ext
  · simp only [clipPoint]
    rw [if_neg (not_lt.mpr hx0), if_neg (not_lt.mpr hx1)]
  · simp only [clipPoint]
    rw [if_neg (not_lt.mpr hy0), if_neg (not_lt.mpr hy1)]

/-! ### Sampling -/

theorem Mat.at_of_inside (img : Mat) (row col : ℤ) (hr0 : 0 ≤ row) (hr1 : row < img.rows)
    (hc0 : 0 ≤ col) (hc1 : col < img.cols) :
    img.at_ row col = some (img.data row.toNat col.toNat) := by
  unfold Mat.at_
  rw [if_pos ⟨hr0, hr1, hc0, hc1⟩]

/-- At a lattice point inside the raster the four reads of `bilinearColor` hit the same
pixel, whose colour is the result. -/
theorem bilinearColor_lattice (img : Mat) (x y : ℤ) (hx0 : 0 ≤ x) (hx1 : x < img.cols)
    (hy0 : 0 ≤ y) (hy1 : y < img.rows) :
    bilinearColor img ⟨(x : ℝ), (y : ℝ)⟩ = some (img.data y.toNat x.toNat) := by
  unfold bilinearColor
  simp only [Int.floor_intCast, Int.ceil_intCast, sub_self, Mat.at_of_inside img y x hy0 hy1 hx0 hx1,
    Option.some_bind, sub_zero, one_smul, zero_smul, add_zero, Vec3d.toVec3b_toVec3d]

theorem floor_ceil_inside {x : ℝ} {n : ℤ} (h0 : 0 ≤ x) (h1 : x ≤ ((n - 1 : ℤ) : ℝ)) :
    (0 ≤ ⌊x⌋ ∧ ⌊x⌋ < n) ∧ (0 ≤ ⌈x⌉ ∧ ⌈x⌉ < n) := by
  have hf0 : 0 ≤ ⌊x⌋ := Int.floor_nonneg.mpr h0
  have hc0 : 0 ≤ ⌈x⌉ := Int.ceil_nonneg h0
  have hc1 : ⌈x⌉ ≤ n - 1 := Int.ceil_le.mpr h1
  have hfc : ⌊x⌋ ≤ ⌈x⌉ := Int.floor_le_ceil x
  exact ⟨⟨hf0, by omega⟩, ⟨hc0, by omega⟩⟩

/-- Inside the raster all four reads of `bilinearColor` succeed. -/
theorem bilinearColor_inside (img : Mat) (q : Point2d)
    (hx0 : 0 ≤ q.x) (hx1 : q.x ≤ (((img.cols : ℤ) - 1 : ℤ) : ℝ))
    (hy0 : 0 ≤ q.y) (hy1 : q.y ≤ (((img.rows : ℤ) - 1 : ℤ) : ℝ)) :
    ∃ c, bilinearColor img q = some c := by
  obtain ⟨⟨xf0, xf1⟩, ⟨xc0, xc1⟩⟩ := floor_ceil_inside hx0 hx1
  obtain ⟨⟨yf0, yf1⟩, ⟨yc0, yc1⟩⟩ := floor_ceil_inside hy0 hy1
  unfold bilinearColor
  simp only [Mat.at_of_inside img _ _ yf0 yf1 xf0 xf1, Mat.at_of_inside img _ _ yf0 yf1 xc0 xc1,
    Mat.at_of_inside img _ _ yc0 yc1 xf0 xf1, Mat.at_of_inside img _ _ yc0 yc1 xc0 xc1,
    Option.some_bind]
  exact ⟨_, rfl⟩

/-- After clamping to the size of a non-empty raster, sampling succeeds. -/
theorem bilinearColor_clipPoint (img : Mat) (p : Point2d) (hr : 1 ≤ img.rows)
    (hc : 1 ≤ img.cols) : ∃ c, bilinearColor img (clipPoint p img.rows img.cols) = some c := by
  have hx := clipPoint_x_bounds p img.rows img.cols (by exact_mod_cast hc)
  have hy := clipPoint_y_bounds p img.rows img.cols (by exact_mod_cast hr)
  exact bilinearColor_inside img _ hx.1 hx.2 hy.1 hy.2

/-! ### The checked mapper -/

/-- The weight is positive as soon as the stored length is not zero. -/
theorem FeatureLine.computeWeight_pos_of_length_ne (l : FeatureLine) (X : Point2d)
    (hlen : l.length ≠ 0) : 0 < l.computeWeight X := by
  unfold FeatureLine.computeWeight
  have hd := l.weightDist_nonneg X
  have hden : 0 < ((PARAM_A : ℕ) : ℝ) + l.weightDist X := by
    simp only [PARAM_A, Nat.cast_one]; linarith
  have hnum : 0 < l.length ^ PARAM_P := by
    simp only [PARAM_P]
    exact lt_of_le_of_ne (sq_nonneg _) (Ne.symm (pow_ne_zero 2 hlen))
  exact pow_pos (div_pos hnum hden) _

/-- Each run of the loop of `warpPoint` that divides by no zero adds a positive weight to
both weight sums. -/
theorem warpSums_weights_pos (p : Point2d) (alpha : ℝ) (pairs : List FeatureLinePair)
    (hfin : ∀ pair ∈ pairs, warpStepFinite alpha pair)
    (acc : WarpAcc) (h1 : 0 ≤ acc.w_source_sum) (h2 : 0 ≤ acc.w_dest_sum) :
    acc.w_source_sum ≤ (pairs.foldl (warpStep p alpha) acc).w_source_sum ∧
    acc.w_dest_sum ≤ (pairs.foldl (warpStep p alpha) acc).w_dest_sum ∧
    (pairs ≠ [] → 0 < (pairs.foldl (warpStep p alpha) acc).w_source_sum ∧
      0 < (pairs.foldl (warpStep p alpha) acc).w_dest_sum) := by
  induction pairs generalizing acc with
  | nil => exact ⟨le_refl _, le_refl _, fun h => absurd rfl h⟩
  | cons pair rest ih =>
    obtain ⟨-, hs, hd⟩ := hfin pair (List.mem_cons_self _ _)
    have hws : 0 < (warpStep p alpha acc pair).w_source_sum - acc.w_source_sum := by
      simp only [warpStep, add_sub_cancel_left]
      exact FeatureLine.computeWeight_pos_of_length_ne _ _ hs
    have hwd : 0 < (warpStep p alpha acc pair).w_dest_sum - acc.w_dest_sum := by
      simp only [warpStep, add_sub_cancel_left]
      exact FeatureLine.computeWeight_pos_of_length_ne _ _ hd
    obtain ⟨i1, i2, -⟩ := ih (fun q hq => hfin q (List.mem_cons_of_mem _ hq))
      (warpStep p alpha acc pair) (by linarith) (by linarith)
    rw [List.foldl_cons]
    exact ⟨by linarith, by linarith, fun _ => ⟨by linarith, by linarith⟩⟩

theorem warpSumsChecked_of_finite (p : Point2d) (pairs : List FeatureLinePair) (alpha : ℝ)
    (hfin : ∀ pair ∈ pairs, warpStepFinite alpha pair) :
    warpSumsChecked p pairs alpha = some (warpSums p pairs alpha) := by
  unfold warpSumsChecked
  rw [if_pos hfin]

theorem warpSumsChecked_of_not_finite (p : Point2d) (pairs : List FeatureLinePair) (alpha : ℝ)
    (hfin : ¬ ∀ pair ∈ pairs, warpStepFinite alpha pair) :
    warpSumsChecked p pairs alpha = none := by
  unfold warpSumsChecked
  rw [if_neg hfin]

/-- On a non-empty list whose runs divide by no zero, the checked mapper returns what the
arithmetic of `warpPoint` gives. -/
theorem warpPointChecked_of_finite (p : Point2d) (pairs : List FeatureLinePair) (alpha : ℝ)
    (hne : pairs ≠ []) (hfin : ∀ pair ∈ pairs, warpStepFinite alpha pair) :
    warpPointChecked p pairs alpha = some (warpPoint p pairs alpha) := by
  obtain ⟨-, -, h⟩ := warpSums_weights_pos p alpha pairs hfin ⟨⟨0, 0⟩, ⟨0, 0⟩, 0, 0⟩
    (le_refl _) (le_refl _)
  obtain ⟨h1, h2⟩ := h hne
  have h1' : (warpSums p pairs alpha).w_source_sum ≠ 0 := ne_of_gt h1
  have h2' : (warpSums p pairs alpha).w_dest_sum ≠ 0 := ne_of_gt h2
  unfold warpPointChecked
  rw [warpSumsChecked_of_finite p pairs alpha hfin, Option.some_bind,
    if_neg (by rintro (h | h); exact h1' h; exact h2' h)]
  rfl

/-- On the empty list both weight sums are zero and the checked mapper has no result. -/
theorem warpPointChecked_nil (p : Point2d) (alpha : ℝ) : warpPointChecked p [] alpha = none := by
  have hfin : ∀ pair ∈ ([] : List FeatureLinePair), warpStepFinite alpha pair := by
    intro pair hp; exact absurd hp (List.not_mem_nil _)
  unfold warpPointChecked
  rw [warpSumsChecked_of_finite p [] alpha hfin, Option.some_bind]
  exact if_pos (Or.inl rfl)

theorem warpPointChecked_of_not_finite (p : Point2d) (pairs : List FeatureLinePair) (alpha : ℝ)
    (hfin : ¬ ∀ pair ∈ pairs, warpStepFinite alpha pair) :
    warpPointChecked p pairs alpha = none := by
  unfold warpPointChecked
  rw [warpSumsChecked_of_not_finite p pairs alpha hfin]
  rfl

/-- For stored lengths that are positive and a ratio in `[0, 1]` no divisor is zero. -/
theorem warpStepFinite_of_unit_interval (pair : FeatureLinePair) (alpha : ℝ)
    (hs : 0 < pair.source.length) (hd : 0 < pair.dest.length) (h0 : 0 ≤ alpha)
    (h1 : alpha ≤ 1) : warpStepFinite alpha pair := by
  refine ⟨?_, ne_of_gt hs, ne_of_gt hd⟩
  apply ne_of_gt
  show 0 < (1 - alpha) * pair.source.length + alpha * pair.dest.length
  rcases eq_or_lt_of_le h0 with h | h
  · rw [← h]; simpa using hs
  · have : 0 ≤ (1 - alpha) * pair.source.length := mul_nonneg (by linarith) (le_of_lt hs)
    have := mul_pos h hd
    linarith

theorem warpStepFinite_of_fromPoints (P Q R S : Point2d) (alpha : ℝ) (hPQ : P ≠ Q) (hRS : R ≠ S)
    (h0 : 0 ≤ alpha) (h1 : alpha ≤ 1) :
    warpStepFinite alpha ⟨FeatureLine.fromPoints P Q, FeatureLine.fromPoints R S⟩ :=
  warpStepFinite_of_unit_interval _ alpha (FeatureLine.fromPoints_length_pos hPQ)
    (FeatureLine.fromPoints_length_pos hRS) h0 h1

/-- A loop whose first run fails, fails. -/
theorem forLoop_none {σ : Type} (n : ℕ) (body : ℕ → σ → Option σ) (s : σ)
    (h : body 0 s = none) : forLoop (n + 1) body s = none := by
  induction n with
  | zero => simp [forLoop, h]
  | succ n ih => rw [forLoop, ih]; rfl

/-! ### The loops of `warpImage` -/

theorem forLoop_rows (c : ℕ → Option Vec3b) (g : ℕ → Vec3b) (i n : ℕ) (out : Mat)
    (h : ∀ j, j < n → c j = some (g j)) :
    forLoop n (fun j out2 => (c j).bind fun color => some (out2.set j i color)) out
      = some ⟨out.rows, out.cols,
          fun r col => if col = i ∧ r < n then g r else out.data r col⟩ := by
  induction n with
  | zero => simp [forLoop]
  | succ n ih =>
    rw [forLoop, ih (fun j hj => h j (Nat.lt_succ_of_lt hj)), Option.some_bind,
      h n (Nat.lt_succ_self n), Option.some_bind]
    congr 1
    ext r col
    · rfl
    · rfl
    · simp only [Mat.set]
      by_cases h1 : r = n ∧ col = i
      · rw [if_pos h1, if_pos ⟨h1.2, by omega⟩, h1.1]
      · rw [if_neg h1]
        by_cases h2 : col = i ∧ r < n
        · rw [if_pos h2, if_pos ⟨h2.1, by omega⟩]
        · rw [if_neg h2, if_neg]
          rintro ⟨h3, h4⟩
          rcases Nat.lt_succ_iff_lt_or_eq.mp h4 with h5 | h5
          · exact h2 ⟨h3, h5⟩
          · exact h1 ⟨h5, h3⟩

theorem forLoop_cols (c : ℕ → ℕ → Option Vec3b) (g : ℕ → ℕ → Vec3b) (rows m : ℕ) (out : Mat)
    (h : ∀ i j, i < m → j < rows → c i j = some (g i j)) :
    forLoop m (fun i out1 =>
        forLoop rows (fun j out2 => (c i j).bind fun color => some (out2.set j i color)) out1) out
      = some ⟨out.rows, out.cols,
          fun r col => if col < m ∧ r < rows then g col r else out.data r col⟩ := by
  induction m with
  | zero => simp [forLoop]
  | succ m ih =>
    rw [forLoop, ih (fun i j hi hj => h i j (Nat.lt_succ_of_lt hi) hj), Option.some_bind,
      forLoop_rows (c m) (g m) m rows _ (fun j hj => h m j (Nat.lt_succ_self m) hj)]
    congr 1
    ext r col
    · rfl
    · rfl
    · simp only
      by_cases h1 : col = m ∧ r < rows
      · rw [if_pos h1, if_pos ⟨by omega, h1.2⟩, h1.1]
      · rw [if_neg h1]
        by_cases h2 : col < m ∧ r < rows
        · rw [if_pos h2, if_pos ⟨by omega, h2.2⟩]
        · rw [if_neg h2, if_neg]
          rintro ⟨h3, h4⟩
          rcases Nat.lt_succ_iff_lt_or_eq.mp h3 with h5 | h5
          · exact h2 ⟨h5, h4⟩
          · exact h1 ⟨h5, h4⟩

/-- On two rasters of one size every pixel computation of `warpImage` succeeds, provided the
list is not empty and no run of the loop of `warpPoint` divides by zero. -/
theorem warpPixel_some (source dest : Mat) (pairs : List FeatureLinePair) (alpha : ℝ)
    (hr : dest.rows = source.rows) (hc : dest.cols = source.cols)
    (hne : pairs ≠ []) (hfin : ∀ pair ∈ pairs, warpStepFinite alpha pair) (i j : ℕ)
    (hi : i < source.cols) (hj : j < source.rows) :
    ∃ cs cd,
      bilinearColor source
        (clipPoint (warpPoint ⟨(i : ℝ), (j : ℝ)⟩ pairs alpha).1 source.rows source.cols) = some cs ∧
      bilinearColor dest
        (clipPoint (warpPoint ⟨(i : ℝ), (j : ℝ)⟩ pairs alpha).2 source.rows source.cols) = some cd ∧
      warpPixel source dest source.rows source.cols pairs alpha i j
        = some (Vec3d.toVec3b ((1 - alpha) • cs.toVec3d + alpha • cd.toVec3d)) := by
  obtain ⟨cs, hcs⟩ := bilinearColor_clipPoint source
    (warpPoint ⟨(i : ℝ), (j : ℝ)⟩ pairs alpha).1 (by omega) (by omega)
  obtain ⟨cd, hcd⟩ := bilinearColor_clipPoint dest
    (warpPoint ⟨(i : ℝ), (j : ℝ)⟩ pairs alpha).2 (by omega) (by omega)
  rw [hr, hc] at hcd
  refine ⟨cs, cd, hcs, hcd, ?_⟩
  unfold warpPixel
  simp only [warpPointChecked_of_finite _ pairs alpha hne hfin, hcs, hcd, Option.some_bind]

/-- The raster that `warpImage` returns on two rasters of one size when the list is not empty
and no run of the loop of `warpPoint` divides by zero: each pixel holds the colour computed
for it. -/
theorem warpImage_eq (source dest : Mat) (pairs : List FeatureLinePair) (alpha : ℝ)
    (hr : dest.rows = source.rows) (hc : dest.cols = source.cols)
    (hne : pairs ≠ []) (hfin : ∀ pair ∈ pairs, warpStepFinite alpha pair) :
    warpImage source dest pairs alpha
      = some ⟨source.rows, source.cols, fun r col =>
          if col < source.cols ∧ r < source.rows then
            (warpPixel source dest source.rows source.cols pairs alpha col r).getD 0
          else 0⟩ := by
  unfold warpImage
  simp only [Mat.create]
  rw [forLoop_cols (fun i j => warpPixel source dest source.rows source.cols pairs alpha i j)
    (fun i j => (warpPixel source dest source.rows source.cols pairs alpha i j).getD 0)]
  · rfl
  · intro i j hi hj
    obtain ⟨cs, cd, -, -, h⟩ := warpPixel_some source dest pairs alpha hr hc hne hfin i j hi hj
    rw [h]; rfl

/-- When the mapper has no result for the first pixel, `warpImage` on a raster with at least
one pixel returns no raster. -/
theorem warpImage_none (source dest : Mat) (pairs : List FeatureLinePair) (alpha : ℝ)
    (hrows : 0 < source.rows) (hcols : 0 < source.cols)
    (h : warpPointChecked ⟨0, 0⟩ pairs alpha = none) :
    warpImage source dest pairs alpha = none := by
  obtain ⟨m, hm⟩ := Nat.exists_eq_succ_of_ne_zero (Nat.pos_iff_ne_zero.mp hrows)
  obtain ⟨k, hk⟩ := Nat.exists_eq_succ_of_ne_zero (Nat.pos_iff_ne_zero.mp hcols)
  have hpix : warpPixel source dest source.rows source.cols pairs alpha 0 0 = none := by
    unfold warpPixel
    simp only [Nat.cast_zero, h, Option.none_bind]
  unfold warpImage
  simp only [Mat.create]
  rw [hk]
  apply forLoop_none
  rw [hm]
  apply forLoop_none
  rw [← hm, ← hk, hpix]
  rfl

theorem warpPixel_zero (source dest : Mat) (pairs : List FeatureLinePair)
    (hr : dest.rows = source.rows) (hc : dest.cols = source.cols)
    (hne : pairs ≠ []) (hfin : ∀ pair ∈ pairs, warpStepFinite 0 pair) (i j : ℕ)
    (hi : i < source.cols) (hj : j < source.rows) :
    warpPixel source dest source.rows source.cols pairs 0 i j
      = bilinearColor source
          (clipPoint (warpPoint ⟨(i : ℝ), (j : ℝ)⟩ pairs 0).1 source.rows source.cols) := by
  obtain ⟨cs, cd, hcs, -, h⟩ := warpPixel_some source dest pairs 0 hr hc hne hfin i j hi hj
  rw [h, hcs]
  simp only [sub_zero, one_smul, zero_smul, add_zero, Vec3d.toVec3b_toVec3d]

theorem warpPixel_one (source dest : Mat) (pairs : List FeatureLinePair)
    (hr : dest.rows = source.rows) (hc : dest.cols = source.cols)
    (hne : pairs ≠ []) (hfin : ∀ pair ∈ pairs, warpStepFinite 1 pair) (i j : ℕ)
    (hi : i < source.cols) (hj : j < source.rows) :
    warpPixel source dest source.rows source.cols pairs 1 i j
      = bilinearColor dest
          (clipPoint (warpPoint ⟨(i : ℝ), (j : ℝ)⟩ pairs 1).2 source.rows source.cols) := by
  obtain ⟨cs, cd, -, hcd, h⟩ := warpPixel_some source dest pairs 1 hr hc hne hfin i j hi hj
  rw [h, hcd]
  simp only [sub_self, one_smul, zero_smul, zero_add, Vec3d.toVec3b_toVec3d]

/-! ### The mapper on a single pair -/

theorem Point2d.divr_add_mulr (p : Point2d) (w : ℝ) (hw : w ≠ 0) :
    Point2d.divr (Point2d.add ⟨0, 0⟩ (Point2d.mulr p w)) (0 + w) = p := by
  ext <;> simp only [Point2d.divr, Point2d.add, Point2d.mulr] <;> field_simp

/-- With one pair in the list, `warpPoint` returns the two candidate points of that
pair, provided their weights are not zero. -/
theorem warpPoint_singleton (p : Point2d) (pair : FeatureLinePair) (alpha : ℝ)
    (hs : pair.source.computeWeight
      (pair.source.computePoint ((pair.interpolateLine alpha).1.computeU p)
        ((pair.interpolateLine alpha).1.computeV p)) ≠ 0)
    (hd : (pair.interpolateLine alpha).2.dest.computeWeight
      ((pair.interpolateLine alpha).2.dest.computePoint ((pair.interpolateLine alpha).1.computeU p)
        ((pair.interpolateLine alpha).1.computeV p)) ≠ 0) :
    warpPoint p [pair] alpha =
      (pair.source.computePoint ((pair.interpolateLine alpha).1.computeU p)
          ((pair.interpolateLine alpha).1.computeV p),
        (pair.interpolateLine alpha).2.dest.computePoint
          ((pair.interpolateLine alpha).1.computeU p)
          ((pair.interpolateLine alpha).1.computeV p)) := by
  simp only [warpPoint, warpSums, List.foldl_cons, List.foldl_nil, warpStep]
  rw [Point2d.divr_add_mulr _ _ hs, Point2d.divr_add_mulr _ _ hd]

/-- Interpolating a pair made of one line twice gives that line rebuilt from its
midpoint, length and angle, at every ratio, and leaves the pair as it was. -/
theorem FeatureLinePair.interpolateLine_same (l : FeatureLine) (alpha : ℝ) :
    FeatureLinePair.interpolateLine ⟨l, l⟩ alpha
      = (FeatureLine.fromPolar l.M l.length l.angle, ⟨l, l⟩) := by
  have hpi : l.angle - l.angle ≤ Real.pi := by
    rw [sub_self]; exact Real.pi_pos.le
  simp only [FeatureLinePair.interpolateLine, addPiWhile_of_le hpi]
  have hM : Point2d.add (Point2d.smul (1 - alpha) l.M) (Point2d.smul alpha l.M) = l.M := by
    ext <;> simp only [Point2d.add, Point2d.smul] <;> ring
  have hl : (1 - alpha) * l.length + alpha * l.length = l.length := by ring
  have ha : (1 - alpha) * l.angle + alpha * l.angle = l.angle := by ring
  rw [hM, hl, ha]

theorem bilinearColor_nat (img : Mat) (i j : ℕ) (hi : i < img.cols) (hj : j < img.rows) :
    bilinearColor img ⟨(i : ℝ), (j : ℝ)⟩ = some (img.data j i) := by
  have h := bilinearColor_lattice img (i : ℤ) (j : ℤ) (by omega) (by omega) (by omega) (by omega)
  simpa using h

theorem cvRound_half_255 : cvRound (255 / 2) = 128 := by
  have hf : ⌊(255 / 2 : ℝ)⌋ = 127 := by
    rw [Int.floor_eq_iff]; norm_num
  unfold cvRound
  simp only [hf]
  norm_num

theorem saturate_cast_half_255 : saturate_cast (255 / 2) = 128 := by
  unfold saturate_cast
  rw [cvRound_half_255]
  unfold saturate_cast_int
  rw [dif_pos (by norm_num)]
  rfl

theorem saturate_cast_zero : saturate_cast 0 = 0 := by
  have := saturate_cast_natCast 0
  simpa using this

/-! ### Angles of axis-parallel lines -/

theorem atan2_down : atan2 (-1) 0 = -(Real.pi / 2) := by
  unfold atan2
  have h : (⟨0, -1⟩ : ℂ) = -Complex.I := by
    apply Complex.ext <;> simp
  rw [h, Complex.arg_neg_I]

theorem atan2_right {x : ℝ} (hx : 0 ≤ x) : atan2 0 x = 0 := by
  unfold atan2
  have h : (⟨x, 0⟩ : ℂ) = (x : ℂ) := by
    apply Complex.ext <;> simp
  rw [h, Complex.arg_ofReal_of_nonneg hx]

theorem atan2_left {x : ℝ} (hx : x < 0) : atan2 0 x = Real.pi := by
  unfold atan2
  have h : (⟨x, 0⟩ : ℂ) = (x : ℂ) := by
    apply Complex.ext <;> simp
  rw [h, Complex.arg_ofReal_of_neg hx]

/-! ### The example pairs, evaluated -/

theorem flippedPair_source :
    flippedPair.source = ⟨⟨0, 1⟩, ⟨0, 0⟩, ⟨0, 1 / 2⟩, 1, -(Real.pi / 2)⟩ := by
  simp only [flippedPair, FeatureLine.fromPoints, Point2d.add, Point2d.sub, Point2d.divr,
    Point2d.norm]
  norm_num [atan2_down]

theorem flippedPair_dest :
    flippedPair.dest = ⟨⟨1, 0⟩, ⟨0, 0⟩, ⟨1 / 2, 0⟩, 1, Real.pi⟩ := by
  simp only [flippedPair, FeatureLine.fromPoints, Point2d.add, Point2d.sub, Point2d.divr,
    Point2d.norm]
  norm_num [atan2_left]

/-- On `flippedPair` the second loop of `interpolateLine` adds `π` once to the source
angle; at ratio 0 the returned line runs from `(0,0)` to `(0,1)`. -/
theorem flippedPair_interpolateLine_zero :
    flippedPair.interpolateLine 0
      = (⟨⟨0, 0⟩, ⟨0, 1⟩, ⟨0, 1 / 2⟩, 1, Real.pi / 2⟩,
         ⟨⟨⟨0, 1⟩, ⟨0, 0⟩, ⟨0, 1 / 2⟩, 1, Real.pi / 2⟩,
          ⟨⟨1, 0⟩, ⟨0, 0⟩, ⟨1 / 2, 0⟩, 1, Real.pi⟩⟩) := by
  have hpi := Real.pi_pos
  have h1 : addPiWhile (-(Real.pi / 2)) Real.pi = Real.pi :=
    addPiWhile_of_le (by linarith)
  have h2 : addPiWhile Real.pi (-(Real.pi / 2)) = Real.pi / 2 := by
    rw [addPiWhile_of_gt (by linarith), addPiWhile_of_le (by linarith)]
    ring
  simp only [FeatureLinePair.interpolateLine, flippedPair_source, flippedPair_dest, h1, h2,
    FeatureLine.fromPolar, Point2d.add, Point2d.smul]
  norm_num

theorem flippedPair_warpPoint : warpPoint ⟨0, 0⟩ [flippedPair] 0 = (⟨0, 1⟩, ⟨1, 0⟩) := by
  have hI := flippedPair_interpolateLine_zero
  have hS := flippedPair_source
  rw [warpPoint_singleton]
  · simp only [hI, hS, FeatureLine.computePoint, FeatureLine.computeU, FeatureLine.computeV,
      FeatureLine.computePerpendicular, Point2d.add, Point2d.sub, Point2d.smul, Point2d.divr,
      Point2d.dot]
    norm_num
  · apply ne_of_gt
    apply FeatureLine.computeWeight_pos_of_length
    rw [hS]; norm_num
  · apply ne_of_gt
    apply FeatureLine.computeWeight_pos_of_length
    rw [hI]; norm_num

theorem halfTurnPair_source :
    halfTurnPair.source = ⟨⟨0, 0⟩, ⟨2, 0⟩, ⟨1, 0⟩, 2, 0⟩ := by
  have hs : Real.sqrt 4 = 2 := by
    rw [show (4 : ℝ) = 2 * 2 by norm_num]
    exact Real.sqrt_mul_self (by norm_num)
  simp only [halfTurnPair, FeatureLine.fromPoints, Point2d.add, Point2d.sub, Point2d.divr,
    Point2d.norm]
  norm_num [atan2_right, hs]

theorem halfTurnPair_dest :
    halfTurnPair.dest = ⟨⟨2, 0⟩, ⟨0, 0⟩, ⟨1, 0⟩, 2, Real.pi⟩ := by
  have hs : Real.sqrt 4 = 2 := by
    rw [show (4 : ℝ) = 2 * 2 by norm_num]
    exact Real.sqrt_mul_self (by norm_num)
  simp only [halfTurnPair, FeatureLine.fromPoints, Point2d.add, Point2d.sub, Point2d.divr,
    Point2d.norm]
  norm_num [atan2_left, hs]

theorem halfTurnPair_interpolateLine_half :
    (halfTurnPair.interpolateLine (1 / 2)).1 = ⟨⟨1, -1⟩, ⟨1, 1⟩, ⟨1, 0⟩, 2, Real.pi / 2⟩ := by
  have hpi := Real.pi_pos
  have h1 : addPiWhile 0 Real.pi = Real.pi := addPiWhile_of_le (by linarith)
  have h2 : addPiWhile Real.pi 0 = 0 := addPiWhile_of_le (by linarith)
  have e : (1 - 1 / 2) * (0 : ℝ) + 1 / 2 * Real.pi = Real.pi / 2 := by ring
  simp only [FeatureLinePair.interpolateLine, halfTurnPair_source, halfTurnPair_dest, h1, h2,
    FeatureLine.fromPolar, Point2d.add, Point2d.smul, e, Real.cos_pi_div_two,
    Real.sin_pi_div_two]
  norm_num

/-- When the two angles of a pair of lines built from endpoints are at most `π` apart,
`interpolateLine` changes no angle and returns the source line at ratio 0 and the dest
line at ratio 1. -/
theorem FeatureLinePair.interpolateLine_ends_of_close (P Q R S : Point2d)
    (h1 : (FeatureLine.fromPoints P Q).angle - (FeatureLine.fromPoints R S).angle ≤ Real.pi)
    (h2 : (FeatureLine.fromPoints R S).angle - (FeatureLine.fromPoints P Q).angle ≤ Real.pi) :
    FeatureLinePair.interpolateLine ⟨FeatureLine.fromPoints P Q, FeatureLine.fromPoints R S⟩ 0
      = (FeatureLine.fromPoints P Q, ⟨FeatureLine.fromPoints P Q, FeatureLine.fromPoints R S⟩) ∧
    FeatureLinePair.interpolateLine ⟨FeatureLine.fromPoints P Q, FeatureLine.fromPoints R S⟩ 1
      = (FeatureLine.fromPoints R S, ⟨FeatureLine.fromPoints P Q, FeatureLine.fromPoints R S⟩) := by
  have e0 : ∀ a b : Point2d, Point2d.add (Point2d.smul 1 a) (Point2d.smul 0 b) = a := by
    intro a b; ext <;> simp [Point2d.add, Point2d.smul]
  have e1 : ∀ a b : Point2d, Point2d.add (Point2d.smul 0 a) (Point2d.smul 1 b) = b := by
    intro a b; ext <;> simp [Point2d.add, Point2d.smul]
  constructor
  · simp only [FeatureLinePair.interpolateLine, addPiWhile_of_le h1, addPiWhile_of_le h2, e0,
      sub_zero, one_mul, zero_mul, add_zero]
    rw [FeatureLine.fromPolar_fromPoints]
  · simp only [FeatureLinePair.interpolateLine, addPiWhile_of_le h1, addPiWhile_of_le h2, e1,
      sub_self, one_mul, zero_mul, zero_add]
    rw [FeatureLine.fromPolar_fromPoints]

/-! ### Ratios 0 and 1 where no angle is reconciled -/

/-- The invariant of the loop of `warpPoint` on the source side: while every candidate
point is `p`, the point sum is `p` times the weight sum, and the weight sum grows. -/
theorem warpSums_source_invariant (p : Point2d) (alpha : ℝ) (pairs : List FeatureLinePair)
    (hfix : ∀ pair ∈ pairs,
      pair.source.computePoint ((pair.interpolateLine alpha).1.computeU p)
        ((pair.interpolateLine alpha).1.computeV p) = p)
    (hpos : ∀ pair ∈ pairs, 0 < pair.source.length) (acc : WarpAcc)
    (h1 : acc.p_source_sum = Point2d.mulr p acc.w_source_sum) (h2 : 0 ≤ acc.w_source_sum) :
    (pairs.foldl (warpStep p alpha) acc).p_source_sum
        = Point2d.mulr p (pairs.foldl (warpStep p alpha) acc).w_source_sum ∧
      acc.w_source_sum ≤ (pairs.foldl (warpStep p alpha) acc).w_source_sum ∧
      (pairs ≠ [] → 0 < (pairs.foldl (warpStep p alpha) acc).w_source_sum) := by
  induction pairs generalizing acc with
  | nil => exact ⟨h1, le_refl _, fun h => absurd rfl h⟩
  | cons pair rest ih =>
    have hw : 0 < pair.source.computeWeight p :=
      FeatureLine.computeWeight_pos_of_length _ p (hpos pair (List.mem_cons_self _ _))
    have hf := hfix pair (List.mem_cons_self _ _)
    have hstep1 : (warpStep p alpha acc pair).p_source_sum
        = Point2d.mulr p (warpStep p alpha acc pair).w_source_sum := by
      simp only [warpStep, hf, h1]
      ext <;> simp only [Point2d.add, Point2d.mulr] <;> ring
    have hstep2 : (warpStep p alpha acc pair).w_source_sum
        = acc.w_source_sum + pair.source.computeWeight p := by
      simp only [warpStep, hf]
    obtain ⟨i1, i2, -⟩ := ih (fun q hq => hfix q (List.mem_cons_of_mem _ hq))
      (fun q hq => hpos q (List.mem_cons_of_mem _ hq)) (warpStep p alpha acc pair) hstep1
      (by rw [hstep2]; linarith)
    rw [List.foldl_cons]
    refine ⟨i1, by linarith, fun _ => by linarith⟩

/-- The invariant of the loop of `warpPoint` on the dest side. -/
theorem warpSums_dest_invariant (p : Point2d) (alpha : ℝ) (pairs : List FeatureLinePair)
    (hfix : ∀ pair ∈ pairs,
      (pair.interpolateLine alpha).2.dest.computePoint ((pair.interpolateLine alpha).1.computeU p)
        ((pair.interpolateLine alpha).1.computeV p) = p)
    (hpos : ∀ pair ∈ pairs, 0 < pair.dest.length) (acc : WarpAcc)
    (h1 : acc.p_dest_sum = Point2d.mulr p acc.w_dest_sum) (h2 : 0 ≤ acc.w_dest_sum) :
    (pairs.foldl (warpStep p alpha) acc).p_dest_sum
        = Point2d.mulr p (pairs.foldl (warpStep p alpha) acc).w_dest_sum ∧
      acc.w_dest_sum ≤ (pairs.foldl (warpStep p alpha) acc).w_dest_sum ∧
      (pairs ≠ [] → 0 < (pairs.foldl (warpStep p alpha) acc).w_dest_sum) := by
  induction pairs generalizing acc with
  | nil => exact ⟨h1, le_refl _, fun h => absurd rfl h⟩
  | cons pair rest ih =>
    have hw : 0 < (pair.interpolateLine alpha).2.dest.computeWeight p :=
      FeatureLine.computeWeight_pos_of_length _ p (hpos pair (List.mem_cons_self _ _))
    have hf := hfix pair (List.mem_cons_self _ _)
    have hstep1 : (warpStep p alpha acc pair).p_dest_sum
        = Point2d.mulr p (warpStep p alpha acc pair).w_dest_sum := by
      simp only [warpStep, hf, h1]
      ext <;> simp only [Point2d.add, Point2d.mulr] <;> ring
    have hstep2 : (warpStep p alpha acc pair).w_dest_sum
        = acc.w_dest_sum + (pair.interpolateLine alpha).2.dest.computeWeight p := by
      simp only [warpStep, hf]
    obtain ⟨i1, i2, -⟩ := ih (fun q hq => hfix q (List.mem_cons_of_mem _ hq))
      (fun q hq => hpos q (List.mem_cons_of_mem _ hq)) (warpStep p alpha acc pair) hstep1
      (by rw [hstep2]; linarith)
    rw [List.foldl_cons]
    refine ⟨i1, by linarith, fun _ => by linarith⟩

theorem Point2d.divr_mulr (p : Point2d) (w : ℝ) (hw : w ≠ 0) :
    Point2d.divr (Point2d.mulr p w) w = p := by
  ext <;> simp only [Point2d.divr, Point2d.mulr] <;> field_simp

/-- Where no angle is reconciled, ratio 0 maps every point to itself on the source side
and ratio 1 maps every point to itself on the dest side. -/
theorem warpPoint_ends_of_close (p : Point2d) (pairs : List FeatureLinePair) (hne : pairs ≠ [])
    (hwf : ∀ pair ∈ pairs, ∃ P Q R S : Point2d, P ≠ Q ∧ R ≠ S ∧
      pair = ⟨FeatureLine.fromPoints P Q, FeatureLine.fromPoints R S⟩ ∧
      |pair.source.angle - pair.dest.angle| ≤ Real.pi) :
    (warpPoint p pairs 0).1 = p ∧ (warpPoint p pairs 1).2 = p := by
  have hz : (0 : ℝ) ≤ 0 := le_refl 0
  have h0 : (⟨0, 0⟩ : Point2d) = Point2d.mulr p 0 := by
    ext <;> simp [Point2d.mulr]
  constructor
  · obtain ⟨i1, -, i3⟩ := warpSums_source_invariant p 0 pairs
      (fun pair hp => by
        obtain ⟨P, Q, R, S, hPQ, -, rfl, hang⟩ := hwf pair hp
        have hle := abs_le.mp hang
        rw [(FeatureLinePair.interpolateLine_ends_of_close P Q R S (by linarith [hle.2])
          (by linarith [hle.1])).1]
        exact FeatureLine.computePoint_computeUV_of_length _ p rfl hPQ)
      (fun pair hp => by
        obtain ⟨P, Q, R, S, hPQ, -, rfl, -⟩ := hwf pair hp
        exact FeatureLine.fromPoints_length_pos hPQ)
      ⟨⟨0, 0⟩, ⟨0, 0⟩, 0, 0⟩ h0 hz
    simp only [warpPoint, warpSums]
    rw [i1, Point2d.divr_mulr _ _ (ne_of_gt (i3 hne))]
  · obtain ⟨i1, -, i3⟩ := warpSums_dest_invariant p 1 pairs
      (fun pair hp => by
        obtain ⟨P, Q, R, S, -, hRS, rfl, hang⟩ := hwf pair hp
        have hle := abs_le.mp hang
        rw [(FeatureLinePair.interpolateLine_ends_of_close P Q R S (by linarith [hle.2])
          (by linarith [hle.1])).2]
        exact FeatureLine.computePoint_computeUV_of_length _ p rfl hRS)
      (fun pair hp => by
        obtain ⟨P, Q, R, S, -, hRS, rfl, -⟩ := hwf pair hp
        exact FeatureLine.fromPoints_length_pos hRS)
      ⟨⟨0, 0⟩, ⟨0, 0⟩, 0, 0⟩ h0 hz
    simp only [warpPoint, warpSums]
    rw [i1, Point2d.divr_mulr _ _ (ne_of_gt (i3 hne))]

/-- Where no angle is reconciled, `warpImage` at ratio 0 returns the source raster and at
ratio 1 the dest raster, pixel for pixel. -/
theorem warpImage_ends_of_close (source dest : Mat) (pairs : List FeatureLinePair)
    (hr : dest.rows = source.rows) (hc : dest.cols = source.cols) (hne : pairs ≠ [])
    (hwf : ∀ pair ∈ pairs, ∃ P Q R S : Point2d, P ≠ Q ∧ R ≠ S ∧
      pair = ⟨FeatureLine.fromPoints P Q, FeatureLine.fromPoints R S⟩ ∧
      |pair.source.angle - pair.dest.angle| ≤ Real.pi) :
    (∃ out, warpImage source dest pairs 0 = some out ∧
      out.rows = source.rows ∧ out.cols = source.cols ∧
      ∀ i j : ℕ, i < source.cols → j < source.rows → out.data j i = source.data j i) ∧
    (∃ out, warpImage source dest pairs 1 = some out ∧
      out.rows = dest.rows ∧ out.cols = dest.cols ∧
      ∀ i j : ℕ, i < dest.cols → j < dest.rows → out.data j i = dest.data j i) := by
  have hin : ∀ i j : ℕ, i < source.cols → j < source.rows →
      clipPoint ⟨(i : ℝ), (j : ℝ)⟩ source.rows source.cols = ⟨(i : ℝ), (j : ℝ)⟩ := by
    intro i j hi hj
    apply clipPoint_of_inside
    · exact Nat.cast_nonneg i
    · have h : (i : ℤ) ≤ (source.cols : ℤ) - 1 := by omega
      have h2 : ((i : ℤ) : ℝ) ≤ (((source.cols : ℤ) - 1 : ℤ) : ℝ) := Int.cast_le.mpr h
      simpa using h2
    · exact Nat.cast_nonneg j
    · have h : (j : ℤ) ≤ (source.rows : ℤ) - 1 := by omega
      have h2 : ((j : ℤ) : ℝ) ≤ (((source.rows : ℤ) - 1 : ℤ) : ℝ) := Int.cast_le.mpr h
      simpa using h2
  have hfin : ∀ alpha : ℝ, 0 ≤ alpha → alpha ≤ 1 →
      ∀ pair ∈ pairs, warpStepFinite alpha pair := by
    intro alpha h0 h1 pair hp
    obtain ⟨P, Q, R, S, hPQ, hRS, rfl, -⟩ := hwf pair hp
    exact warpStepFinite_of_fromPoints P Q R S alpha hPQ hRS h0 h1
  have hfin0 := hfin 0 (le_refl _) zero_le_one
  have hfin1 := hfin 1 zero_le_one (le_refl _)
  refine ⟨⟨_, warpImage_eq source dest pairs 0 hr hc hne hfin0, rfl, rfl, ?_⟩,
    ⟨_, warpImage_eq source dest pairs 1 hr hc hne hfin1, hr.symm, hc.symm, ?_⟩⟩
  · intro i j hi hj
    simp only [if_pos (And.intro hi hj),
      warpPixel_zero source dest pairs hr hc hne hfin0 i j hi hj,
      (warpPoint_ends_of_close ⟨(i : ℝ), (j : ℝ)⟩ pairs hne hwf).1, hin i j hi hj,
      bilinearColor_nat source i j hi hj, Option.getD_some]
  · intro i j hi hj
    rw [hc] at hi
    rw [hr] at hj
    simp only [if_pos (And.intro hi hj),
      warpPixel_one source dest pairs hr hc hne hfin1 i j hi hj,
      (warpPoint_ends_of_close ⟨(i : ℝ), (j : ℝ)⟩ pairs hne hwf).2, hin i j hi hj,
      bilinearColor_nat dest i j (by rw [hc]; exact hi) (by rw [hr]; exact hj), Option.getD_some]

/-! ### The reconciliation loops -/

theorem addPiCount_of_le {a b : ℝ} (h : a - b ≤ Real.pi) : addPiCount a b = 0 := by
  rw [addPiCount, if_neg (not_lt.mpr h)]

theorem addPiCount_of_gt {a b : ℝ} (h : a - b > Real.pi) :
    addPiCount a b = addPiCount a (b + Real.pi) + 1 := by
  rw [addPiCount, if_pos h]

/-- The loop runs at most `⌈(a - b) / π⌉` times. -/
theorem addPiCount_le_ceil (a b : ℝ) : addPiCount a b ≤ Int.toNat ⌈(a - b) / Real.pi⌉ := by
  induction b using addPiWhile.induct a with
  | case1 b h ih =>
    have hpi : 0 < Real.pi := Real.pi_pos
    have e : (a - (b + Real.pi)) / Real.pi = (a - b) / Real.pi - 1 := by
      field_simp; ring
    have h1 : 1 < (a - b) / Real.pi := by
      rw [lt_div_iff₀ hpi]; linarith
    have h2 : (1 : ℤ) < ⌈(a - b) / Real.pi⌉ := by
      have := Int.le_ceil ((a - b) / Real.pi)
      have h3 : ((1 : ℤ) : ℝ) < ((⌈(a - b) / Real.pi⌉ : ℤ) : ℝ) := by
        push_cast; linarith
      exact_mod_cast h3
    rw [addPiCount_of_gt h]
    rw [e, Int.ceil_sub_one] at ih
    omega
  | case2 b h =>
    rw [addPiCount_of_le (not_lt.mp h)]
    exact Nat.zero_le _

/-- What the loop `while (a - b > M_PI) b += M_PI;` leaves: `b` has grown by `π` once per
run of the body, `a - b ≤ π` holds, `a - b` is positive if the body ran at all, and the
body runs at most once when `a - b < 2π` at the start. -/
theorem addPiWhile_spec (a b : ℝ) :
    addPiWhile a b = b + addPiCount a b * Real.pi ∧ a - addPiWhile a b ≤ Real.pi ∧
      (addPiCount a b ≠ 0 → 0 < a - addPiWhile a b) ∧
      (a - b < 2 * Real.pi → addPiCount a b ≤ 1) := by
  induction b using addPiWhile.induct a with
  | case1 b h ih =>
    obtain ⟨i1, i2, i3, i4⟩ := ih
    rw [addPiWhile_of_gt h, addPiCount_of_gt h]
    refine ⟨?_, i2, ?_, ?_⟩
    · rw [i1]; push_cast; ring
    · intro _
      by_cases hc : addPiCount a (b + Real.pi) = 0
      · rw [i1, hc]; simp only [Nat.cast_zero, zero_mul, add_zero]; linarith
      · exact i3 hc
    · intro h2
      have : a - (b + Real.pi) ≤ Real.pi := by linarith
      rw [addPiCount_of_le this]
  | case2 b h =>
    have h' : a - b ≤ Real.pi := not_lt.mp h
    rw [addPiWhile_of_le h', addPiCount_of_le h']
    refine ⟨by simp, h', fun hc => absurd rfl hc, fun _ => Nat.zero_le _⟩

/-- The angles that the two loops of `interpolateLine` leave in the pair. -/
theorem FeatureLinePair.interpolateLine_angles (pr : FeatureLinePair) (alpha : ℝ) :
    (pr.interpolateLine alpha).2.dest.angle
      = pr.dest.angle + addPiCount pr.source.angle pr.dest.angle * Real.pi ∧
    (pr.interpolateLine alpha).2.source.angle
      = pr.source.angle
        + addPiCount (pr.interpolateLine alpha).2.dest.angle pr.source.angle * Real.pi ∧
    |(pr.interpolateLine alpha).2.source.angle - (pr.interpolateLine alpha).2.dest.angle|
      ≤ Real.pi ∧
    (-Real.pi < pr.source.angle ∧ pr.source.angle ≤ Real.pi →
      -Real.pi < pr.dest.angle ∧ pr.dest.angle ≤ Real.pi →
      addPiCount pr.source.angle pr.dest.angle
        + addPiCount (pr.interpolateLine alpha).2.dest.angle pr.source.angle ≤ 1) := by
  have hpi := Real.pi_pos
  obtain ⟨a1, a2, a3, a4⟩ := addPiWhile_spec pr.source.angle pr.dest.angle
  obtain ⟨b1, b2, b3, b4⟩ :=
    addPiWhile_spec (addPiWhile pr.source.angle pr.dest.angle) pr.source.angle
  have hd : (pr.interpolateLine alpha).2.dest.angle
      = addPiWhile pr.source.angle pr.dest.angle := rfl
  have hs : (pr.interpolateLine alpha).2.source.angle
      = addPiWhile (addPiWhile pr.source.angle pr.dest.angle) pr.source.angle := rfl
  rw [hs, hd]
  refine ⟨a1, b1, ?_, ?_⟩
  · by_cases hc : addPiCount pr.source.angle pr.dest.angle = 0
    · by_cases hc2 : addPiCount (addPiWhile pr.source.angle pr.dest.angle) pr.source.angle = 0
      · rw [b1, hc2]
        simp only [Nat.cast_zero, zero_mul, add_zero]
        rw [abs_le]
        constructor
        · have := b2
          rw [b1, hc2] at this
          simp only [Nat.cast_zero, zero_mul, add_zero] at this
          linarith
        · exact a2
      · have h3 := b3 hc2
        rw [abs_le]
        constructor <;> linarith
    · have h3 := a3 hc
      have hle : addPiWhile pr.source.angle pr.dest.angle - pr.source.angle ≤ Real.pi := by
        linarith
      rw [addPiWhile_of_le hle, abs_le]
      constructor <;> linarith
  · intro hsr hdr
    have c1 := a4 (by linarith [hsr.2, hdr.1])
    by_cases hc : addPiCount pr.source.angle pr.dest.angle = 0
    · rw [hc, zero_add]
      apply b4
      rw [a1, hc]
      simp only [Nat.cast_zero, zero_mul, add_zero]
      linarith [hsr.1, hdr.2]
    · have h3 := a3 hc
      have hle : addPiWhile pr.source.angle pr.dest.angle - pr.source.angle ≤ Real.pi := by
        linarith
      rw [addPiCount_of_le hle]
      omega

/-- When the two angles are at most `π` apart neither loop of `interpolateLine` runs: the
pair is left as it was and the returned line is the plain blend. -/
theorem FeatureLinePair.interpolateLine_of_close (pr : FeatureLinePair) (alpha : ℝ)
    (h : |pr.source.angle - pr.dest.angle| ≤ Real.pi) :
    pr.interpolateLine alpha
      = (FeatureLine.fromPolar
          (Point2d.add (Point2d.smul (1 - alpha) pr.source.M) (Point2d.smul alpha pr.dest.M))
          ((1 - alpha) * pr.source.length + alpha * pr.dest.length)
          ((1 - alpha) * pr.source.angle + alpha * pr.dest.angle), pr) := by
  have hle := abs_le.mp h
  have h1 : addPiWhile pr.source.angle pr.dest.angle = pr.dest.angle :=
    addPiWhile_of_le (by linarith [hle.2])
  have h2 : addPiWhile pr.dest.angle pr.source.angle = pr.source.angle :=
    addPiWhile_of_le (by linarith [hle.1])
  simp only [FeatureLinePair.interpolateLine, h1, h2]

/-! ### Weight sums -/

/-! ### Reads of `bilinearColor` -/

theorem Mat.at_isSome_iff (img : Mat) (row col : ℤ) :
    (img.at_ row col).isSome ↔ (0 ≤ row ∧ row < img.rows ∧ 0 ≤ col ∧ col < img.cols) := by
  unfold Mat.at_
  split_ifs with h
  · simp [h]
  · simp [h]

/-- `bilinearColor` returns a colour exactly when its four reads are inside the raster. -/
theorem bilinearColor_isSome_iff (img : Mat) (p : Point2d) :
    (bilinearColor img p).isSome ↔ ∀ rc ∈ bilinearReads p, (img.at_ rc.1 rc.2).isSome := by
  unfold bilinearColor bilinearReads
  simp only [List.mem_cons, List.mem_singleton, List.not_mem_nil, or_false, forall_eq_or_imp,
    forall_eq]
  cases h1 : img.at_ ⌊p.y⌋ ⌊p.x⌋ <;> cases h2 : img.at_ ⌊p.y⌋ ⌈p.x⌉ <;>
    cases h3 : img.at_ ⌈p.y⌉ ⌊p.x⌋ <;> cases h4 : img.at_ ⌈p.y⌉ ⌈p.x⌉ <;> simp

/-- After clamping to a non-empty raster size the four positions read lie inside it. -/
theorem bilinearReads_clipPoint (p : Point2d) (rows cols : ℤ) (hr : 1 ≤ rows) (hc : 1 ≤ cols) :
    ∀ rc ∈ bilinearReads (clipPoint p rows cols),
      0 ≤ rc.1 ∧ rc.1 ≤ rows - 1 ∧ 0 ≤ rc.2 ∧ rc.2 ≤ cols - 1 := by
  have hx := clipPoint_x_bounds p rows cols hc
  have hy := clipPoint_y_bounds p rows cols hr
  obtain ⟨⟨xf0, xf1⟩, ⟨xc0, xc1⟩⟩ := floor_ceil_inside hx.1 hx.2
  obtain ⟨⟨yf0, yf1⟩, ⟨yc0, yc1⟩⟩ := floor_ceil_inside hy.1 hy.2
  intro rc hrc
  simp only [bilinearReads, List.mem_cons, List.mem_singleton, List.not_mem_nil, or_false] at hrc
  rcases hrc with h | h | h | h <;> rw [h] <;> simp only <;> omega

/-! ### Rounding stays between integer bounds -/

theorem cvRound_mem (x : ℝ) : cvRound x = ⌊x⌋ ∨ (cvRound x = ⌊x⌋ + 1 ∧ 1 / 2 ≤ x - ⌊x⌋) := by
  unfold cvRound
  simp only
  split_ifs with h1 h2 h3
  · exact Or.inl rfl
  · exact Or.inr ⟨rfl, le_of_lt h2⟩
  · exact Or.inl rfl
  · exact Or.inr ⟨rfl, not_lt.mp h1⟩

theorem cvRound_ge (m : ℤ) (x : ℝ) (h : (m : ℝ) ≤ x) : m ≤ cvRound x := by
  have hf : m ≤ ⌊x⌋ := Int.le_floor.mpr h
  rcases cvRound_mem x with h1 | ⟨h1, -⟩ <;> rw [h1] <;> omega

theorem cvRound_le (m : ℤ) (x : ℝ) (h : x ≤ (m : ℝ)) : cvRound x ≤ m := by
  have hf : ⌊x⌋ ≤ m := by
    have := Int.floor_le x
    exact_mod_cast (le_trans this h)
  rcases cvRound_mem x with h1 | ⟨h1, h2⟩
  · rw [h1]; exact hf
  · rw [h1]
    have hlt : ((⌊x⌋ : ℤ) : ℝ) < (m : ℝ) := by linarith
    have : ⌊x⌋ < m := by exact_mod_cast hlt
    omega

theorem saturate_cast_between (lo hi : ℕ) (x : ℝ) (hhi : hi ≤ 255) (h1 : (lo : ℝ) ≤ x)
    (h2 : x ≤ (hi : ℝ)) : lo ≤ ((saturate_cast x : uchar) : ℕ) ∧
      ((saturate_cast x : uchar) : ℕ) ≤ hi := by
  have g1 : (lo : ℤ) ≤ cvRound x := cvRound_ge lo x (by exact_mod_cast h1)
  have g2 : cvRound x ≤ (hi : ℤ) := cvRound_le hi x (by exact_mod_cast h2)
  unfold saturate_cast saturate_cast_int
  rw [dif_pos (by omega)]
  simp only
  omega

theorem bilinear_blend_between (u v a b c d lo hi : ℝ) (hu0 : 0 ≤ u) (hu1 : u ≤ 1)
    (hv0 : 0 ≤ v) (hv1 : v ≤ 1) (ha : lo ≤ a ∧ a ≤ hi) (hb : lo ≤ b ∧ b ≤ hi)
    (hc : lo ≤ c ∧ c ≤ hi) (hd : lo ≤ d ∧ d ≤ hi) :
    lo ≤ (1 - v) * ((1 - u) * a + u * b) + v * ((1 - u) * c + u * d) ∧
      (1 - v) * ((1 - u) * a + u * b) + v * ((1 - u) * c + u * d) ≤ hi := by
  have h1u : 0 ≤ 1 - u := by linarith
  have h1v : 0 ≤ 1 - v := by linarith
  have e1 : lo ≤ (1 - u) * a + u * b := by nlinarith [mul_nonneg h1u (sub_nonneg.mpr ha.1), mul_nonneg hu0 (sub_nonneg.mpr hb.1)]
  have e2 : lo ≤ (1 - u) * c + u * d := by nlinarith [mul_nonneg h1u (sub_nonneg.mpr hc.1), mul_nonneg hu0 (sub_nonneg.mpr hd.1)]
  have e3 : (1 - u) * a + u * b ≤ hi := by nlinarith [mul_nonneg h1u (sub_nonneg.mpr ha.2), mul_nonneg hu0 (sub_nonneg.mpr hb.2)]
  have e4 : (1 - u) * c + u * d ≤ hi := by nlinarith [mul_nonneg h1u (sub_nonneg.mpr hc.2), mul_nonneg hu0 (sub_nonneg.mpr hd.2)]
  constructor
  · nlinarith [mul_nonneg h1v (sub_nonneg.mpr e1), mul_nonneg hv0 (sub_nonneg.mpr e2)]
  · nlinarith [mul_nonneg h1v (sub_nonneg.mpr e3), mul_nonneg hv0 (sub_nonneg.mpr e4)]

theorem bilinear_channel_between (a b c d : uchar) (u v : ℝ) (hu0 : 0 ≤ u) (hu1 : u ≤ 1)
    (hv0 : 0 ≤ v) (hv1 : v ≤ 1) :
    min (min a.val b.val) (min c.val d.val)
        ≤ (saturate_cast ((1 - v) * ((1 - u) * (a.val : ℝ) + u * (b.val : ℝ))
            + v * ((1 - u) * (c.val : ℝ) + u * (d.val : ℝ)))).val ∧
      (saturate_cast ((1 - v) * ((1 - u) * (a.val : ℝ) + u * (b.val : ℝ))
            + v * ((1 - u) * (c.val : ℝ) + u * (d.val : ℝ)))).val
        ≤ max (max a.val b.val) (max c.val d.val) := by
  have ha := a.isLt
  have hb := b.isLt
  have hc := c.isLt
  have hd := d.isLt
  have key := bilinear_blend_between u v (a.val : ℝ) (b.val : ℝ) (c.val : ℝ) (d.val : ℝ)
    ((min (min a.val b.val) (min c.val d.val) : ℕ) : ℝ)
    ((max (max a.val b.val) (max c.val d.val) : ℕ) : ℝ) hu0 hu1 hv0 hv1
    ⟨Nat.cast_le.mpr (by omega), Nat.cast_le.mpr (by omega)⟩
    ⟨Nat.cast_le.mpr (by omega), Nat.cast_le.mpr (by omega)⟩
    ⟨Nat.cast_le.mpr (by omega), Nat.cast_le.mpr (by omega)⟩
    ⟨Nat.cast_le.mpr (by omega), Nat.cast_le.mpr (by omega)⟩
  exact saturate_cast_between _ _ _ (by omega) key.1 key.2

/-! ### Distance to the points of the line, translation -/

/-- The squared distance from `X` to the point at parameter `t` of the line through `P`
and `Q` splits into the squared `v` and the squared offset of `t` from `u`. -/
theorem FeatureLine.sq_dist_param (P Q X : Point2d) (t : ℝ) (h : P ≠ Q) :
    (X.x - (P.x + t * (Q.x - P.x))) * (X.x - (P.x + t * (Q.x - P.x)))
        + (X.y - (P.y + t * (Q.y - P.y))) * (X.y - (P.y + t * (Q.y - P.y)))
      = (FeatureLine.fromPoints P Q).computeV X * (FeatureLine.fromPoints P Q).computeV X
        + ((Q.x - P.x) * (Q.x - P.x) + (Q.y - P.y) * (Q.y - P.y))
          * ((t - (FeatureLine.fromPoints P Q).computeU X)
            * (t - (FeatureLine.fromPoints P Q).computeU X)) := by
  have hpos := Point2d.sub_ne_zero h
  have hL : (FeatureLine.fromPoints P Q).length * (FeatureLine.fromPoints P Q).length
      = (Q.x - P.x) * (Q.x - P.x) + (Q.y - P.y) * (Q.y - P.y) :=
    Point2d.norm_mul_self (Point2d.sub Q P)
  have hlen : (FeatureLine.fromPoints P Q).length ≠ 0 :=
    ne_of_gt (FeatureLine.fromPoints_length_pos h)
  have hv : (FeatureLine.fromPoints P Q).computeV X * (FeatureLine.fromPoints P Q).computeV X
      = ((X.x - P.x) * (Q.y - P.y) + (X.y - P.y) * -(Q.x - P.x))
          * ((X.x - P.x) * (Q.y - P.y) + (X.y - P.y) * -(Q.x - P.x))
        / ((Q.x - P.x) * (Q.x - P.x) + (Q.y - P.y) * (Q.y - P.y)) := by
    rw [← hL]
    simp only [FeatureLine.computeV, FeatureLine.computePerpendicular, Point2d.dot, Point2d.sub]
    rw [div_mul_div_comm]
    rfl
  have hu : (FeatureLine.fromPoints P Q).computeU X
      = ((X.x - P.x) * (Q.x - P.x) + (X.y - P.y) * (Q.y - P.y))
        / ((Q.x - P.x) * (Q.x - P.x) + (Q.y - P.y) * (Q.y - P.y)) := by
    rw [← hL]
    rfl
  rw [hv, hu]
  have hne := ne_of_gt hpos
  field_simp
  ring

/-- Translating both endpoints by `t` moves `P`, `Q` and `M` by `t` and keeps length and
angle. -/
theorem FeatureLine.fromPoints_translate (P Q t : Point2d) :
    FeatureLine.fromPoints (Point2d.add P t) (Point2d.add Q t)
      = ⟨Point2d.add P t, Point2d.add Q t, Point2d.add (FeatureLine.fromPoints P Q).M t,
          (FeatureLine.fromPoints P Q).length, (FeatureLine.fromPoints P Q).angle⟩ := by
  have hd : Point2d.sub (Point2d.add Q t) (Point2d.add P t) = Point2d.sub Q P := by
    ext <;> simp only [Point2d.sub, Point2d.add] <;> ring
  have hM : Point2d.divr (Point2d.add (Point2d.add P t) (Point2d.add Q t)) 2
      = Point2d.add (Point2d.divr (Point2d.add P Q) 2) t := by
    ext <;> simp only [Point2d.divr, Point2d.add] <;> ring
  simp only [FeatureLine.fromPoints, hd, hM]

theorem FeatureLine.computePoint_translate (P Q t : Point2d) (u v : ℝ) :
    (FeatureLine.fromPoints (Point2d.add P t) (Point2d.add Q t)).computePoint u v
      = Point2d.add ((FeatureLine.fromPoints P Q).computePoint u v) t := by
  rw [FeatureLine.fromPoints_translate]
  ext <;> simp only [FeatureLine.computePoint, FeatureLine.computePerpendicular,
    FeatureLine.fromPoints, Point2d.add, Point2d.sub, Point2d.smul, Point2d.divr] <;> ring

theorem Point2d.eq_sub_of_add_eq (a s p : Point2d) (h : Point2d.add a s = p) :
    a = Point2d.sub p s := by
  rw [← h]
  ext <;> simp only [Point2d.sub, Point2d.add] <;> ring

/-! ### Zero divisors: ratios 0 and 1, rasters without a pixel, the example pairs -/

/-- At ratio 0 and at ratio 1 no divisor is zero as soon as the stored lengths are not. -/
theorem warpStepFinite_ends (pair : FeatureLinePair)
    (h : pair.source.length ≠ 0 ∧ pair.dest.length ≠ 0) :
    warpStepFinite 0 pair ∧ warpStepFinite 1 pair := by
  constructor
  · refine ⟨?_, h.1, h.2⟩
    show (1 - 0) * pair.source.length + 0 * pair.dest.length ≠ 0
    simpa using h.1
  · refine ⟨?_, h.1, h.2⟩
    show (1 - 1) * pair.source.length + 1 * pair.dest.length ≠ 0
    simpa using h.2

/-- A loop whose body changes nothing returns the state it started from. -/
theorem forLoop_const {σ : Type} (n : ℕ) (body : ℕ → σ → Option σ) (s : σ)
    (h : ∀ k, body k s = some s) : forLoop n body s = some s := by
  induction n with
  | zero => rfl
  | succ n ih => rw [forLoop, ih, Option.some_bind, h]

/-- On rasters without a pixel `warpImage` returns the raster it created, whatever the list. -/
theorem warpImage_no_pixel (source dest : Mat) (pairs : List FeatureLinePair) (alpha : ℝ)
    (h : source.rows = 0 ∨ source.cols = 0) :
    warpImage source dest pairs alpha = some (Mat.create source.rows source.cols) := by
  unfold warpImage
  simp only [Mat.create]
  rcases h with h | h
  · apply forLoop_const
    intro k
    rw [h]
    rfl
  · rw [h]
    rfl

theorem flippedPair_finite (alpha : ℝ) (h0 : 0 ≤ alpha) (h1 : alpha ≤ 1) :
    ∀ pair ∈ [flippedPair], warpStepFinite alpha pair := by
  intro pair hp
  rw [List.mem_singleton] at hp
  rw [hp]
  apply warpStepFinite_of_unit_interval _ alpha _ _ h0 h1
  · rw [flippedPair_source]; norm_num
  · rw [flippedPair_dest]; norm_num

theorem diagonalPair_finite (alpha : ℝ) (h0 : 0 ≤ alpha) (h1 : alpha ≤ 1) :
    ∀ pair ∈ [diagonalPair], warpStepFinite alpha pair := by
  have hne : (⟨0, 0⟩ : Point2d) ≠ ⟨3, 3⟩ := fun h => by
    have := congrArg Point2d.x h
    norm_num at this
  intro pair hp
  rw [List.mem_singleton] at hp
  rw [hp]
  exact warpStepFinite_of_fromPoints _ _ _ _ alpha hne hne h0 h1

theorem shrinkPair_source : shrinkPair.source = ⟨⟨0, 0⟩, ⟨2, 0⟩, ⟨1, 0⟩, 2, 0⟩ :=
  halfTurnPair_source

theorem shrinkPair_dest : shrinkPair.dest = ⟨⟨0, 0⟩, ⟨1, 0⟩, ⟨1 / 2, 0⟩, 1, 0⟩ := by
  simp only [shrinkPair, FeatureLine.fromPoints, Point2d.add, Point2d.sub, Point2d.divr,
    Point2d.norm]
  norm_num [atan2_right]

theorem shrinkPair_interpolateLine_two :
    (shrinkPair.interpolateLine 2).1 = ⟨⟨0, 0⟩, ⟨0, 0⟩, ⟨0, 0⟩, 0, 0⟩ := by
  have hpi := Real.pi_pos
  have h1 : addPiWhile (0 : ℝ) 0 = 0 := addPiWhile_of_le (by linarith)
  simp only [FeatureLinePair.interpolateLine, shrinkPair_source, shrinkPair_dest, h1,
    FeatureLine.fromPolar, Point2d.add, Point2d.smul]
  norm_num

theorem pointPair_source : pointPair.source = ⟨⟨0, 0⟩, ⟨0, 0⟩, ⟨0, 0⟩, 0, 0⟩ := by
  simp only [pointPair, FeatureLine.fromPoints, Point2d.add, Point2d.sub, Point2d.divr,
    Point2d.norm]
  norm_num [atan2_right]

/-! ## Claims -/

/-- C1. Inverse consistency: for a line built from two distinct endpoints and any point
`X`, `computePoint(computeU(X), computeV(X))` gives back `X`. -/
theorem computePoint_computeU_computeV (P Q X : Point2d) (h : P ≠ Q) :
    (FeatureLine.fromPoints P Q).computePoint
      ((FeatureLine.fromPoints P Q).computeU X) ((FeatureLine.fromPoints P Q).computeV X) = X :=
  FeatureLine.computePoint_computeUV_of_length _ X rfl h

/-- Witness for C1: the line from `(0,0)` to `(3,4)` and the point `(1,2)`. -/
theorem computePoint_computeU_computeV_witness :
    (⟨0, 0⟩ : Point2d) ≠ ⟨3, 4⟩ ∧
    (FeatureLine.fromPoints ⟨0, 0⟩ ⟨3, 4⟩).computePoint
      ((FeatureLine.fromPoints ⟨0, 0⟩ ⟨3, 4⟩).computeU ⟨1, 2⟩)
      ((FeatureLine.fromPoints ⟨0, 0⟩ ⟨3, 4⟩).computeV ⟨1, 2⟩) = ⟨1, 2⟩ :=
  have hne : (⟨0, 0⟩ : Point2d) ≠ ⟨3, 4⟩ := fun h => by
    have := congrArg Point2d.x h
    norm_num at this
  ⟨hne, computePoint_computeU_computeV ⟨0, 0⟩ ⟨3, 4⟩ ⟨1, 2⟩ hne⟩

/-- C2. Endpoint interpolation identity, evaluated where it fails: for the pair whose
source line runs from `(0,1)` to `(0,0)` and whose dest line runs from `(1,0)` to `(0,0)`,
both built from distinct endpoints, `interpolateLine(0)` returns a line with the source
length but with the endpoints of the source line exchanged and with angle `π/2`, while the
source angle is `-π/2`. -/
theorem interpolateLine_zero_flipped :
    flippedPair.source.P ≠ flippedPair.source.Q ∧ flippedPair.dest.P ≠ flippedPair.dest.Q ∧
    (flippedPair.interpolateLine 0).1.P = flippedPair.source.Q ∧
    (flippedPair.interpolateLine 0).1.Q = flippedPair.source.P ∧
    (flippedPair.interpolateLine 0).1.length = flippedPair.source.length ∧
    (flippedPair.interpolateLine 0).1.angle = Real.pi / 2 ∧
    flippedPair.source.angle = -(Real.pi / 2) ∧
    (flippedPair.interpolateLine 0).1.P ≠ flippedPair.source.P ∧
    (flippedPair.interpolateLine 0).1.Q ≠ flippedPair.source.Q ∧
    (flippedPair.interpolateLine 0).1.angle ≠ flippedPair.source.angle := by
  have hpi := Real.pi_pos
  have hne : (⟨0, 1⟩ : Point2d) ≠ ⟨0, 0⟩ := fun h => by
    have := congrArg Point2d.y h
    norm_num at this
  have hne2 : (⟨1, 0⟩ : Point2d) ≠ ⟨0, 0⟩ := fun h => by
    have := congrArg Point2d.x h
    norm_num at this
  rw [flippedPair_interpolateLine_zero, flippedPair_source, flippedPair_dest]
  refine ⟨hne, hne2, rfl, rfl, rfl, rfl, rfl, hne.symm, hne, ?_⟩
  intro h
  simp only at h
  linarith

/-- C3. Ratio 0 selects pure source, evaluated where it fails: with the single pair whose
source line runs from `(0,1)` to `(0,0)` and whose dest line runs from `(1,0)` to `(0,0)`,
`warpPoint((0,0), pairs, 0)[0]` is `(0,1)`, not `(0,0)`, and on the 2×2 raster whose rows
differ `warpImage(source, dest, pairs, 0)` puts at row 0, column 0 the source pixel of
row 1, column 0, which is not the source pixel of row 0, column 0. -/
theorem warpImage_zero_flipped :
    flippedPair.source.P ≠ flippedPair.source.Q ∧ flippedPair.dest.P ≠ flippedPair.dest.Q ∧
    (warpPoint ⟨0, 0⟩ [flippedPair] 0).1 = ⟨0, 1⟩ ∧
    (warpPoint ⟨0, 0⟩ [flippedPair] 0).1 ≠ ⟨0, 0⟩ ∧
    ∃ out, warpImage twoRowRaster twoRowRaster [flippedPair] 0 = some out ∧
      out.data 0 0 = twoRowRaster.data 1 0 ∧ out.data 0 0 ≠ twoRowRaster.data 0 0 := by
  have hne1 : (⟨0, 1⟩ : Point2d) ≠ ⟨0, 0⟩ := fun h => by
    have := congrArg Point2d.y h
    norm_num at this
  have hne2 : (⟨1, 0⟩ : Point2d) ≠ ⟨0, 0⟩ := fun h => by
    have := congrArg Point2d.x h
    norm_num at this
  have e : twoRowRaster.rows = 2 := rfl
  have e2 : twoRowRaster.cols = 2 := rfl
  have hpix : warpPixel twoRowRaster twoRowRaster 2 2 [flippedPair] 0 0 0
      = some (twoRowRaster.data 1 0) := by
    have h := warpPixel_zero twoRowRaster twoRowRaster [flippedPair] rfl rfl
      (List.cons_ne_nil _ _) (flippedPair_finite 0 (le_refl _) zero_le_one) 0 0
      (by decide) (by decide)
    have hc : clipPoint ⟨0, 1⟩ (2 : ℕ) (2 : ℕ) = ⟨0, 1⟩ := by
      rw [clipPoint_of_inside] <;> norm_num
    simp only [e, e2] at h
    rw [h]
    simp only [Nat.cast_zero, flippedPair_warpPoint, hc]
    have hb := bilinearColor_nat twoRowRaster 0 1 (by decide) (by decide)
    simpa using hb
  refine ⟨by rw [flippedPair_source]; exact hne1, by rw [flippedPair_dest]; exact hne2,
    by rw [flippedPair_warpPoint], by rw [flippedPair_warpPoint]; exact hne1, _,
    warpImage_eq twoRowRaster twoRowRaster [flippedPair] 0 rfl rfl (List.cons_ne_nil _ _)
      (flippedPair_finite 0 (le_refl _) zero_le_one), ?_, ?_⟩
  · simp only [e, e2, hpix]
    simp
  · simp only [e, e2, hpix]
    simp only [twoRowRaster]
    intro hcon
    have h0 := congrFun hcon 0
    revert h0
    simp

/-- C4, as the code has it. 180-degree scenario on a horizontal line: when the source line
runs from `(a, c)` to `(b, c)` with `a ≠ b` and the dest line is the same segment reversed
(same midpoint and length, angles `0` and `π`), neither loop of `interpolateLine` runs and
`interpolateLine(0.5)` returns the vertical line through the common midpoint, of the same
length, with angle `π/2`: its angle is not the source angle plus a multiple of `π`, and its
direction is perpendicular to the two original lines. -/
theorem interpolateLine_half_turn (a b c : ℝ) (h : a ≠ b) :
    (FeatureLinePair.interpolateLine
        ⟨FeatureLine.fromPoints ⟨a, c⟩ ⟨b, c⟩, FeatureLine.fromPoints ⟨b, c⟩ ⟨a, c⟩⟩ (1 / 2)).2
      = ⟨FeatureLine.fromPoints ⟨a, c⟩ ⟨b, c⟩, FeatureLine.fromPoints ⟨b, c⟩ ⟨a, c⟩⟩ ∧
    (FeatureLinePair.interpolateLine
        ⟨FeatureLine.fromPoints ⟨a, c⟩ ⟨b, c⟩, FeatureLine.fromPoints ⟨b, c⟩ ⟨a, c⟩⟩ (1 / 2)).1
      = ⟨⟨(a + b) / 2, c - |b - a| / 2⟩, ⟨(a + b) / 2, c + |b - a| / 2⟩, ⟨(a + b) / 2, c⟩,
          |b - a|, Real.pi / 2⟩ ∧
    (∀ k : ℤ, Real.pi / 2 ≠ (FeatureLine.fromPoints ⟨a, c⟩ ⟨b, c⟩).angle + k * Real.pi) ∧
    Point2d.dot
      (Point2d.sub (⟨(a + b) / 2, c + |b - a| / 2⟩ : Point2d) ⟨(a + b) / 2, c - |b - a| / 2⟩)
      (Point2d.sub (FeatureLine.fromPoints ⟨a, c⟩ ⟨b, c⟩).Q
        (FeatureLine.fromPoints ⟨a, c⟩ ⟨b, c⟩).P) = 0 := by
  have hpi := Real.pi_pos
  have hlen : ∀ x y : ℝ, Real.sqrt ((x - y) * (x - y) + (c - c) * (c - c)) = |x - y| := by
    intro x y
    rw [sub_self, mul_zero, add_zero, ← sq, Real.sqrt_sq_eq_abs]
  have hS : FeatureLine.fromPoints ⟨a, c⟩ ⟨b, c⟩
      = ⟨⟨a, c⟩, ⟨b, c⟩, ⟨(a + b) / 2, c⟩, |b - a|, atan2 0 (b - a)⟩ := by
    simp only [FeatureLine.fromPoints, Point2d.add, Point2d.sub, Point2d.divr, Point2d.norm, hlen]
    simp
  have hD : FeatureLine.fromPoints ⟨b, c⟩ ⟨a, c⟩
      = ⟨⟨b, c⟩, ⟨a, c⟩, ⟨(a + b) / 2, c⟩, |b - a|, atan2 0 (a - b)⟩ := by
    simp only [FeatureLine.fromPoints, Point2d.add, Point2d.sub, Point2d.divr, Point2d.norm, hlen]
    simp [abs_sub_comm a b, add_comm b a]
  have hang : (atan2 0 (b - a) = 0 ∧ atan2 0 (a - b) = Real.pi) ∨
      (atan2 0 (b - a) = Real.pi ∧ atan2 0 (a - b) = 0) := by
    rcases lt_or_gt_of_ne h with hlt | hgt
    · exact Or.inl ⟨atan2_right (by linarith), atan2_left (by linarith)⟩
    · exact Or.inr ⟨atan2_left (by linarith), atan2_right (by linarith)⟩
  have hclose : |atan2 0 (b - a) - atan2 0 (a - b)| ≤ Real.pi := by
    rcases hang with ⟨h1, h2⟩ | ⟨h1, h2⟩
    · rw [h1, h2, zero_sub, abs_neg, abs_of_pos hpi]
    · rw [h1, h2, sub_zero, abs_of_pos hpi]
  have hmean : (1 - 1 / 2) * atan2 0 (b - a) + 1 / 2 * atan2 0 (a - b) = Real.pi / 2 := by
    rcases hang with ⟨h1, h2⟩ | ⟨h1, h2⟩ <;> rw [h1, h2] <;> ring
  have hI := FeatureLinePair.interpolateLine_of_close
    ⟨FeatureLine.fromPoints ⟨a, c⟩ ⟨b, c⟩, FeatureLine.fromPoints ⟨b, c⟩ ⟨a, c⟩⟩ (1 / 2)
    (by simp only [hS, hD]; exact hclose)
  refine ⟨by rw [hI], ?_, ?_, ?_⟩
  · rw [hI]
    simp only [hS, hD, hmean, FeatureLine.fromPolar, Point2d.add, Point2d.smul,
      Real.cos_pi_div_two, Real.sin_pi_div_two]
    ext <;> simp <;> ring
  · intro k hk
    rw [hS] at hk
    simp only at hk
    rcases hang with ⟨h1, -⟩ | ⟨h1, -⟩
    · rw [h1, zero_add] at hk
      have h3 : (1 : ℝ) = 2 * k := by
        have := mul_right_cancel₀ (ne_of_gt hpi)
          (by linarith : (1 : ℝ) / 2 * Real.pi = k * Real.pi)
        linarith
      have h4 : (1 : ℤ) = 2 * k := by exact_mod_cast h3
      omega
    · rw [h1] at hk
      have h3 : (-1 : ℝ) = 2 * k := by
        have := mul_right_cancel₀ (ne_of_gt hpi)
          (by linarith : (-1 : ℝ) / 2 * Real.pi = k * Real.pi)
        linarith
      have h4 : (-1 : ℤ) = 2 * k := by exact_mod_cast h3
      omega
  · simp [Point2d.dot, Point2d.sub, FeatureLine.fromPoints]

/-- Witness for C4 as the code has it: source from `(0,0)` to `(2,0)`, dest from `(2,0)`
to `(0,0)`. -/
theorem interpolateLine_half_turn_witness :
    (0 : ℝ) ≠ 2 ∧
    (halfTurnPair.interpolateLine (1 / 2)).2 = halfTurnPair ∧
    (halfTurnPair.interpolateLine (1 / 2)).1
      = ⟨⟨(0 + 2) / 2, 0 - |(2 : ℝ) - 0| / 2⟩, ⟨(0 + 2) / 2, 0 + |(2 : ℝ) - 0| / 2⟩,
          ⟨(0 + 2) / 2, 0⟩, |(2 : ℝ) - 0|, Real.pi / 2⟩ := by
  have hne : (0 : ℝ) ≠ 2 := by norm_num
  obtain ⟨h1, h2, -, -⟩ := interpolateLine_half_turn 0 2 0 hne
  exact ⟨hne, h1, h2⟩

/-- Counterexample to C4 as stated: with source from `(0,0)` to `(2,0)` and dest from
`(2,0)` to `(0,0)`, the line returned by `interpolateLine(0.5)` runs from `(1,-1)` to
`(1,1)` with angle `π/2`: its angle is not the source angle plus a multiple of `π`, and
its direction is perpendicular to the source direction. -/
theorem interpolateLine_half_turn_perpendicular :
    (halfTurnPair.interpolateLine (1 / 2)).1 = ⟨⟨1, -1⟩, ⟨1, 1⟩, ⟨1, 0⟩, 2, Real.pi / 2⟩ ∧
    (∀ k : ℤ, (halfTurnPair.interpolateLine (1 / 2)).1.angle
        ≠ halfTurnPair.source.angle + k * Real.pi) ∧
    Point2d.dot (Point2d.sub (halfTurnPair.interpolateLine (1 / 2)).1.Q
        (halfTurnPair.interpolateLine (1 / 2)).1.P)
      (Point2d.sub halfTurnPair.source.Q halfTurnPair.source.P) = 0 := by
  have hpi := Real.pi_pos
  have hL := halfTurnPair_interpolateLine_half
  refine ⟨hL, ?_, ?_⟩
  · intro k hk
    rw [hL, halfTurnPair_source] at hk
    simp only [zero_add] at hk
    have h3 : (1 : ℝ) = 2 * k := by
      have := mul_right_cancel₀ (ne_of_gt hpi) (by linarith : (1 : ℝ) / 2 * Real.pi = k * Real.pi)
      linarith
    have h4 : (1 : ℤ) = 2 * k := by exact_mod_cast h3
    omega
  · rw [hL, halfTurnPair_source]
    simp [Point2d.dot, Point2d.sub]

/-- C5. Identity geometry for identical lines: for a single pair whose source and dest
are the same line, built from endpoints `P ≠ Q`, every point `p` and every ratio `alpha`,
`warpPoint(p, [pair], alpha)` returns `(p, p)`. -/
theorem warpPoint_identical_lines (P Q p : Point2d) (alpha : ℝ) (h : P ≠ Q) :
    warpPoint p [⟨FeatureLine.fromPoints P Q, FeatureLine.fromPoints P Q⟩] alpha = (p, p) := by
  have hI := FeatureLinePair.interpolateLine_same (FeatureLine.fromPoints P Q) alpha
  rw [FeatureLine.fromPolar_fromPoints] at hI
  have hp := FeatureLine.computePoint_computeUV_of_length (FeatureLine.fromPoints P Q) p rfl h
  have hw : (FeatureLine.fromPoints P Q).computeWeight p ≠ 0 :=
    ne_of_gt (FeatureLine.computeWeight_pos_of_length _ p (FeatureLine.fromPoints_length_pos h))
  rw [warpPoint_singleton]
  · simp only [hI, hp]
  · simp only [hI, hp]; exact hw
  · simp only [hI, hp]; exact hw

/-- Witness for C5: 4×4 rasters, source all `(255,0,0)`, dest all `(0,0,255)`, the line
from `(0,0)` to `(3,3)` in both images, ratio 0.5: `warpImage` returns a raster whose pixels
all have channels (127 or 128, 0, 127 or 128). -/
theorem warpImage_identical_lines_4x4 :
    (⟨0, 0⟩ : Point2d) ≠ ⟨3, 3⟩ ∧
    ∃ out, warpImage redRaster blueRaster [diagonalPair] (1 / 2) = some out ∧
      ∀ i j : ℕ, i < 4 → j < 4 →
        (out.data j i 0 = 127 ∨ out.data j i 0 = 128) ∧ out.data j i 1 = 0 ∧
        (out.data j i 2 = 127 ∨ out.data j i 2 = 128) := by
  have hne : (⟨0, 0⟩ : Point2d) ≠ ⟨3, 3⟩ := by
    intro h
    have := congrArg Point2d.x h
    norm_num at this
  have hfin := diagonalPair_finite (1 / 2) (by norm_num) (by norm_num)
  refine ⟨hne, _, warpImage_eq redRaster blueRaster [diagonalPair] (1 / 2) rfl rfl
    (List.cons_ne_nil _ _) hfin, ?_⟩
  intro i j hi hj
  have hwp := warpPoint_identical_lines ⟨0, 0⟩ ⟨3, 3⟩ ⟨(i : ℝ), (j : ℝ)⟩ (1 / 2) hne
  have hi3 : (i : ℝ) ≤ 3 := by exact_mod_cast (by omega : i ≤ 3)
  have hj3 : (j : ℝ) ≤ 3 := by exact_mod_cast (by omega : j ≤ 3)
  have hclip : clipPoint ⟨(i : ℝ), (j : ℝ)⟩ (4 : ℕ) (4 : ℕ) = ⟨(i : ℝ), (j : ℝ)⟩ :=
    clipPoint_of_inside _ _ _ (Nat.cast_nonneg i) (by push_cast; linarith)
      (Nat.cast_nonneg j) (by push_cast; linarith)
  have e255 : (((255 : uchar) : ℕ) : ℝ) = 255 := by
    have h : ((255 : uchar) : ℕ) = 255 := rfl
    rw [h]; norm_num
  have e0 : (((0 : uchar) : ℕ) : ℝ) = 0 := by
    have h : ((0 : uchar) : ℕ) = 0 := rfl
    rw [h]; norm_num
  have hpix : warpPixel redRaster blueRaster 4 4 [diagonalPair] (1 / 2) i j
      = some ![128, 0, 128] := by
    unfold warpPixel
    simp only [warpPointChecked_of_finite _ [diagonalPair] (1 / 2) (List.cons_ne_nil _ _) hfin,
      Option.some_bind]
    simp only [diagonalPair, hwp, hclip]
    rw [bilinearColor_nat redRaster i j hi hj, bilinearColor_nat blueRaster i j hi hj]
    simp only [Option.some_bind, redRaster, blueRaster]
    congr 1
    funext k
    fin_cases k
    · show saturate_cast ((1 - 1 / 2) * (((255 : uchar) : ℕ) : ℝ)
        + 1 / 2 * (((0 : uchar) : ℕ) : ℝ)) = 128
      rw [e255, e0, show ((1 : ℝ) - 1 / 2) * 255 + 1 / 2 * 0 = 255 / 2 by norm_num]
      exact saturate_cast_half_255
    · show saturate_cast ((1 - 1 / 2) * (((0 : uchar) : ℕ) : ℝ)
        + 1 / 2 * (((0 : uchar) : ℕ) : ℝ)) = 0
      rw [e0, show ((1 : ℝ) - 1 / 2) * 0 + 1 / 2 * 0 = 0 by norm_num]
      exact saturate_cast_zero
    · show saturate_cast ((1 - 1 / 2) * (((0 : uchar) : ℕ) : ℝ)
        + 1 / 2 * (((255 : uchar) : ℕ) : ℝ)) = 128
      rw [e255, e0, show ((1 : ℝ) - 1 / 2) * 0 + 1 / 2 * 255 = 255 / 2 by norm_num]
      exact saturate_cast_half_255
  have hrows : redRaster.rows = 4 := rfl
  have hcols : redRaster.cols = 4 := rfl
  simp only [hrows, hcols, if_pos (And.intro hi hj), hpix, Option.getD_some]
  decide

/-- C6. Weight positivity: for a line built from two distinct endpoints and any point
`X`, `computeWeight(X)` is strictly positive (with `PARAM_A = 1`, `PARAM_B = 2`,
`PARAM_P = 2`). -/
theorem computeWeight_pos (P Q X : Point2d) (h : P ≠ Q) :
    PARAM_A = 1 ∧ PARAM_B = 2 ∧ PARAM_P = 2 ∧ 0 < (FeatureLine.fromPoints P Q).computeWeight X :=
  ⟨rfl, rfl, rfl,
    FeatureLine.computeWeight_pos_of_length _ X (FeatureLine.fromPoints_length_pos h)⟩

/-- Witness for C6: the line from `(0,0)` to `(3,4)` and the point `(10,-7)`. -/
theorem computeWeight_pos_witness :
    (⟨0, 0⟩ : Point2d) ≠ ⟨3, 4⟩ ∧
    (PARAM_A = 1 ∧ PARAM_B = 2 ∧ PARAM_P = 2 ∧
      0 < (FeatureLine.fromPoints ⟨0, 0⟩ ⟨3, 4⟩).computeWeight ⟨10, -7⟩) :=
  have hne : (⟨0, 0⟩ : Point2d) ≠ ⟨3, 4⟩ := fun h => by
    have := congrArg Point2d.x h
    norm_num at this
  ⟨hne, computeWeight_pos ⟨0, 0⟩ ⟨3, 4⟩ ⟨10, -7⟩ hne⟩

/-- C7. Clamping containment: for `rows ≥ 1`, `cols ≥ 1` and any point `p`, the point
`q = clipPoint(p, rows, cols)` has `0 ≤ q.x ≤ cols - 1` and `0 ≤ q.y ≤ rows - 1`. -/
theorem clipPoint_contained (p : Point2d) (rows cols : ℤ) (hr : 1 ≤ rows) (hc : 1 ≤ cols) :
    0 ≤ (clipPoint p rows cols).x ∧ (clipPoint p rows cols).x ≤ (cols : ℝ) - 1 ∧
    0 ≤ (clipPoint p rows cols).y ∧ (clipPoint p rows cols).y ≤ (rows : ℝ) - 1 := by
  have hx := clipPoint_x_bounds p rows cols hc
  have hy := clipPoint_y_bounds p rows cols hr
  push_cast at hx hy
  exact ⟨hx.1, hx.2, hy.1, hy.2⟩

/-- Witness for C7: the point `(-5, 7)` clamped to a 4×4 raster. -/
theorem clipPoint_contained_witness :
    ((1 : ℤ) ≤ 4 ∧ (1 : ℤ) ≤ 4) ∧
    (0 ≤ (clipPoint ⟨-5, 7⟩ 4 4).x ∧ (clipPoint ⟨-5, 7⟩ 4 4).x ≤ ((4 : ℤ) : ℝ) - 1 ∧
      0 ≤ (clipPoint ⟨-5, 7⟩ 4 4).y ∧ (clipPoint ⟨-5, 7⟩ 4 4).y ≤ ((4 : ℤ) : ℝ) - 1) :=
  ⟨⟨by decide, by decide⟩, clipPoint_contained ⟨-5, 7⟩ 4 4 (by decide) (by decide)⟩

/-- C8. Sampling degeneracy: at a point with integer coordinates `0 ≤ x ≤ cols - 1`,
`0 ≤ y ≤ rows - 1`, `bilinearColor(img, p)` returns exactly the colour stored at row
`y`, column `x` of `img`. -/
theorem bilinearColor_at_lattice (img : Mat) (p : Point2d) (x y : ℤ)
    (hpx : p.x = (x : ℝ)) (hpy : p.y = (y : ℝ))
    (hx0 : 0 ≤ x) (hx1 : x ≤ (img.cols : ℤ) - 1) (hy0 : 0 ≤ y) (hy1 : y ≤ (img.rows : ℤ) - 1) :
    bilinearColor img p = some (img.data y.toNat x.toNat) ∧
      img.at_ y x = some (img.data y.toNat x.toNat) := by
  have hp : p = ⟨(x : ℝ), (y : ℝ)⟩ := by ext <;> simp [hpx, hpy]
  rw [hp]
  exact ⟨bilinearColor_lattice img x y hx0 (by omega) hy0 (by omega),
    Mat.at_of_inside img y x hy0 (by omega) hx0 (by omega)⟩

/-- Witness for C8: the lattice point `(1, 1)` of the 2×2 raster. -/
theorem bilinearColor_at_lattice_witness :
    ((1 : ℝ) = ((1 : ℤ) : ℝ) ∧ (0 : ℤ) ≤ 1 ∧ (1 : ℤ) ≤ (twoRowRaster.cols : ℤ) - 1 ∧
      (1 : ℤ) ≤ (twoRowRaster.rows : ℤ) - 1) ∧
    (bilinearColor twoRowRaster ⟨1, 1⟩ = some (twoRowRaster.data (1 : ℤ).toNat (1 : ℤ).toNat) ∧
      twoRowRaster.at_ 1 1 = some (twoRowRaster.data (1 : ℤ).toNat (1 : ℤ).toNat)) :=
  have h1 : (1 : ℝ) = ((1 : ℤ) : ℝ) := by norm_num
  have hc : (1 : ℤ) ≤ (twoRowRaster.cols : ℤ) - 1 := by decide
  have hr : (1 : ℤ) ≤ (twoRowRaster.rows : ℤ) - 1 := by decide
  ⟨⟨h1, by decide, hc, hr⟩,
    bilinearColor_at_lattice twoRowRaster ⟨1, 1⟩ 1 1 h1 h1 (by decide) hc (by decide) hr⟩

/-- C9, as the code has it. Cross-dissolve boundary: on two rasters of one size and a
non-empty list of pairs whose lines all have a length other than zero, `warpImage` at
`alpha = 0` returns a raster whose pixel in row `j`, column `i` is
`bilinearColor(source, clipPoint(warpPoint((i,j), pairs, 0)[0]))`, and that raster is the
same for every dest raster of that size; at `alpha = 1` each pixel is
`bilinearColor(dest, clipPoint(warpPoint((i,j), pairs, 1)[1]))`, and the raster is the same
for every source raster of that size. -/
theorem warpImage_cross_dissolve_boundary (source dest : Mat) (pairs : List FeatureLinePair)
    (hr : dest.rows = source.rows) (hc : dest.cols = source.cols) (hne : pairs ≠ [])
    (hlen : ∀ pair ∈ pairs, pair.source.length ≠ 0 ∧ pair.dest.length ≠ 0) :
    (∃ out, warpImage source dest pairs 0 = some out ∧
        out.rows = source.rows ∧ out.cols = source.cols ∧
        ∀ i j : ℕ, i < source.cols → j < source.rows →
          bilinearColor source
            (clipPoint (warpPoint ⟨(i : ℝ), (j : ℝ)⟩ pairs 0).1 source.rows source.cols)
              = some (out.data j i)) ∧
    (∀ dest2 : Mat, dest2.rows = source.rows → dest2.cols = source.cols →
        warpImage source dest2 pairs 0 = warpImage source dest pairs 0) ∧
    (∃ out, warpImage source dest pairs 1 = some out ∧
        out.rows = source.rows ∧ out.cols = source.cols ∧
        ∀ i j : ℕ, i < source.cols → j < source.rows →
          bilinearColor dest
            (clipPoint (warpPoint ⟨(i : ℝ), (j : ℝ)⟩ pairs 1).2 source.rows source.cols)
              = some (out.data j i)) ∧
    (∀ source2 : Mat, source2.rows = source.rows → source2.cols = source.cols →
        warpImage source2 dest pairs 1 = warpImage source dest pairs 1) := by
  have hf0 : ∀ pair ∈ pairs, warpStepFinite 0 pair :=
    fun pair hp => (warpStepFinite_ends pair (hlen pair hp)).1
  have hf1 : ∀ pair ∈ pairs, warpStepFinite 1 pair :=
    fun pair hp => (warpStepFinite_ends pair (hlen pair hp)).2
  refine ⟨⟨_, warpImage_eq source dest pairs 0 hr hc hne hf0, rfl, rfl, ?_⟩, ?_,
    ⟨_, warpImage_eq source dest pairs 1 hr hc hne hf1, rfl, rfl, ?_⟩, ?_⟩
  · intro i j hi hj
    obtain ⟨cs, cd, hcs, -, -⟩ := warpPixel_some source dest pairs 0 hr hc hne hf0 i j hi hj
    simp only [if_pos (And.intro hi hj), warpPixel_zero source dest pairs hr hc hne hf0 i j hi hj,
      hcs, Option.getD_some]
  · intro dest2 hr2 hc2
    rw [warpImage_eq source dest2 pairs 0 hr2 hc2 hne hf0,
      warpImage_eq source dest pairs 0 hr hc hne hf0]
    congr 2
    funext r col
    by_cases h : col < source.cols ∧ r < source.rows
    · rw [if_pos h, if_pos h, warpPixel_zero source dest2 pairs hr2 hc2 hne hf0 col r h.1 h.2,
        warpPixel_zero source dest pairs hr hc hne hf0 col r h.1 h.2]
    · rw [if_neg h, if_neg h]
  · intro i j hi hj
    obtain ⟨cs, cd, -, hcd, -⟩ := warpPixel_some source dest pairs 1 hr hc hne hf1 i j hi hj
    simp only [if_pos (And.intro hi hj), warpPixel_one source dest pairs hr hc hne hf1 i j hi hj,
      hcd, Option.getD_some]
  · intro source2 hr2 hc2
    have hr3 : dest.rows = source2.rows := by rw [hr, hr2]
    have hc3 : dest.cols = source2.cols := by rw [hc, hc2]
    rw [warpImage_eq source2 dest pairs 1 hr3 hc3 hne hf1,
      warpImage_eq source dest pairs 1 hr hc hne hf1]
    rw [hr2, hc2]
    congr 2
    funext r col
    by_cases h : col < source.cols ∧ r < source.rows
    · have h2 : col < source2.cols ∧ r < source2.rows := by rw [hr2, hc2]; exact h
      have e1 := warpPixel_one source2 dest pairs hr3 hc3 hne hf1 col r h2.1 h2.2
      rw [hr2, hc2] at e1
      rw [if_pos h, if_pos h, e1, warpPixel_one source dest pairs hr hc hne hf1 col r h.1 h.2]
    · rw [if_neg h, if_neg h]

/-- Witness for C9 as the code has it: the 4×4 rasters `redRaster` and `blueRaster` with the
single pair `flippedPair`. -/
theorem warpImage_cross_dissolve_boundary_witness :
    (blueRaster.rows = redRaster.rows ∧ blueRaster.cols = redRaster.cols ∧
      [flippedPair] ≠ [] ∧
      ∀ pair ∈ [flippedPair], pair.source.length ≠ 0 ∧ pair.dest.length ≠ 0) ∧
    ((∃ out, warpImage redRaster blueRaster [flippedPair] 0 = some out ∧
        out.rows = redRaster.rows ∧ out.cols = redRaster.cols ∧
        ∀ i j : ℕ, i < redRaster.cols → j < redRaster.rows →
          bilinearColor redRaster
            (clipPoint (warpPoint ⟨(i : ℝ), (j : ℝ)⟩ [flippedPair] 0).1
              redRaster.rows redRaster.cols) = some (out.data j i)) ∧
    (∀ dest2 : Mat, dest2.rows = redRaster.rows → dest2.cols = redRaster.cols →
        warpImage redRaster dest2 [flippedPair] 0
          = warpImage redRaster blueRaster [flippedPair] 0) ∧
    (∃ out, warpImage redRaster blueRaster [flippedPair] 1 = some out ∧
        out.rows = redRaster.rows ∧ out.cols = redRaster.cols ∧
        ∀ i j : ℕ, i < redRaster.cols → j < redRaster.rows →
          bilinearColor blueRaster
            (clipPoint (warpPoint ⟨(i : ℝ), (j : ℝ)⟩ [flippedPair] 1).2
              redRaster.rows redRaster.cols) = some (out.data j i)) ∧
    (∀ source2 : Mat, source2.rows = redRaster.rows → source2.cols = redRaster.cols →
        warpImage source2 blueRaster [flippedPair] 1
          = warpImage redRaster blueRaster [flippedPair] 1)) := by
  have hlen : ∀ pair ∈ [flippedPair], pair.source.length ≠ 0 ∧ pair.dest.length ≠ 0 := by
    intro pair hp
    rw [List.mem_singleton] at hp
    rw [hp, flippedPair_source, flippedPair_dest]
    norm_num
  exact ⟨⟨rfl, rfl, List.cons_ne_nil _ _, hlen⟩,
    warpImage_cross_dissolve_boundary redRaster blueRaster [flippedPair] rfl rfl
      (List.cons_ne_nil _ _) hlen⟩

/-- Counterexample to C9 as stated: with the empty list on the 2×2 raster both weight
sums are zero at the division, the mapper has no point for pixel `(0,0)`, the pixel has no
colour and `warpImage` at `alpha = 0` returns no raster, so no output pixel equals a sample
of the source. -/
theorem warpImage_empty_list_no_raster :
    (warpSums ⟨0, 0⟩ [] 0).w_source_sum = 0 ∧
    warpPointChecked ⟨0, 0⟩ [] 0 = none ∧
    warpPixel twoRowRaster twoRowRaster 2 2 [] 0 0 0 = none ∧
    warpImage twoRowRaster twoRowRaster [] 0 = none ∧
    ¬ ∃ out, warpImage twoRowRaster twoRowRaster [] 0 = some out := by
  have h := warpPointChecked_nil ⟨0, 0⟩ 0
  have hI := warpImage_none twoRowRaster twoRowRaster [] 0 (by decide) (by decide) h
  refine ⟨rfl, h, ?_, hI, ?_⟩
  · unfold warpPixel
    simp only [Nat.cast_zero, h, Option.none_bind]
  · rintro ⟨out, ho⟩
    rw [hI] at ho
    exact Option.noConfusion ho

/-- C10, as the code has it. Zero-length lines are not rejected: the constructor from
two endpoints performs no check, and from two equal endpoints it yields the line with
`P = Q = M` the given point, length 0 and angle `atan2(0, 0) = 0`. -/
theorem fromPoints_equal_endpoints (P : Point2d) :
    FeatureLine.fromPoints P P = ⟨P, P, P, 0, 0⟩ := by
  have hM : Point2d.divr (Point2d.add P P) 2 = P := by
    ext <;> simp only [Point2d.divr, Point2d.add] <;> ring
  have hn : Point2d.norm (Point2d.sub P P) = 0 := by
    simp [Point2d.norm, Point2d.sub]
  have ha : atan2 (Point2d.sub P P).y (Point2d.sub P P).x = 0 := by
    simp only [Point2d.sub, sub_self]
    exact atan2_right (le_refl 0)
  simp only [FeatureLine.fromPoints, hM, hn, ha]

/-- Counterexample to C10 as stated: constructing a line from `(1,1)` and `(1,1)` yields
a FeatureLine value, and its length is 0. -/
theorem fromPoints_zero_length :
    ∃ l : FeatureLine, FeatureLine.fromPoints ⟨1, 1⟩ ⟨1, 1⟩ = l ∧ l.P = l.Q ∧ l.length = 0 := by
  refine ⟨FeatureLine.fromPoints ⟨1, 1⟩ ⟨1, 1⟩, rfl, rfl, ?_⟩
  simp [FeatureLine.fromPoints, Point2d.norm, Point2d.sub]

/-- C11, as the code has it. An empty list of pairs is not rejected before the pixel loop:
the loop of `warpPoint` never runs, its four accumulators keep their initial zeros, so the
division is reached with zero point sums and zero weight sums and yields no point;
`warpImage` returns the raster it created when the rasters have no pixel, and on rasters
with at least one pixel it returns no raster, because the sample of the first pixel fails. -/
theorem warpPoint_empty_list (p : Point2d) (alpha : ℝ) (source dest : Mat) :
    warpSums p [] alpha = ⟨⟨0, 0⟩, ⟨0, 0⟩, 0, 0⟩ ∧
    warpSumsChecked p [] alpha = some ⟨⟨0, 0⟩, ⟨0, 0⟩, 0, 0⟩ ∧
    warpPointChecked p [] alpha = none ∧
    (source.rows = 0 ∨ source.cols = 0 →
      warpImage source dest [] alpha = some (Mat.create source.rows source.cols)) ∧
    (0 < source.rows → 0 < source.cols → warpImage source dest [] alpha = none) := by
  refine ⟨rfl, ?_, warpPointChecked_nil p alpha, warpImage_no_pixel source dest [] alpha, ?_⟩
  · exact warpSumsChecked_of_finite p [] alpha
      (fun pair hp => absurd hp (List.not_mem_nil _))
  · intro hr hc
    exact warpImage_none source dest [] alpha hr hc (warpPointChecked_nil _ alpha)

/-- Counterexample to C11 as stated: on rasters without a pixel `warpImage` with the empty
list does not fail, it returns the raster it created; and `warpPoint` with the empty list
reaches its division with the point sums `(0,0)` and the weight sums `0`. -/
theorem warpImage_empty_list_not_rejected :
    warpImage (Mat.create 0 0) (Mat.create 0 0) [] (1 / 2) = some (Mat.create 0 0) ∧
    (warpSums ⟨0, 0⟩ [] (1 / 2)).p_source_sum = ⟨0, 0⟩ ∧
    (warpSums ⟨0, 0⟩ [] (1 / 2)).w_source_sum = 0 ∧
    (warpSums ⟨0, 0⟩ [] (1 / 2)).p_dest_sum = ⟨0, 0⟩ ∧
    (warpSums ⟨0, 0⟩ [] (1 / 2)).w_dest_sum = 0 :=
  ⟨warpImage_no_pixel (Mat.create 0 0) (Mat.create 0 0) [] (1 / 2) (Or.inl rfl),
    rfl, rfl, rfl, rfl⟩

/-- C12, as the code has it. No division by zero in the mapper: for a non-empty list of pairs
whose lines are built from distinct endpoints, every point `p` and every ratio `alpha` in
`[0, 1]` (or, outside it, every ratio at which no interpolated line has length zero), no run
of the loop of `warpPoint` divides by zero and the two weight sums `w_source_sum` and
`w_dest_sum` by which `warpPoint` divides are strictly positive. -/
theorem warpPoint_weight_sums_pos (p : Point2d) (pairs : List FeatureLinePair) (alpha : ℝ)
    (hne : pairs ≠ [])
    (hwf : ∀ pair ∈ pairs, ∃ P Q R S : Point2d, P ≠ Q ∧ R ≠ S ∧
      pair = ⟨FeatureLine.fromPoints P Q, FeatureLine.fromPoints R S⟩)
    (hmid : (0 ≤ alpha ∧ alpha ≤ 1) ∨
      ∀ pair ∈ pairs, (pair.interpolateLine alpha).1.length ≠ 0) :
    ∃ acc, warpSumsChecked p pairs alpha = some acc ∧
      0 < acc.w_source_sum ∧ 0 < acc.w_dest_sum ∧
      warpPointChecked p pairs alpha
        = some (Point2d.divr acc.p_source_sum acc.w_source_sum,
            Point2d.divr acc.p_dest_sum acc.w_dest_sum) := by
  have hfin : ∀ pair ∈ pairs, warpStepFinite alpha pair := by
    intro pair hp
    obtain ⟨P, Q, R, S, hPQ, hRS, rfl⟩ := hwf pair hp
    rcases hmid with ⟨h0, h1⟩ | hm
    · exact warpStepFinite_of_fromPoints P Q R S alpha hPQ hRS h0 h1
    · exact ⟨hm _ hp, ne_of_gt (FeatureLine.fromPoints_length_pos hPQ),
        ne_of_gt (FeatureLine.fromPoints_length_pos hRS)⟩
  obtain ⟨-, -, h⟩ := warpSums_weights_pos p alpha pairs hfin ⟨⟨0, 0⟩, ⟨0, 0⟩, 0, 0⟩
    (le_refl _) (le_refl _)
  exact ⟨warpSums p pairs alpha, warpSumsChecked_of_finite p pairs alpha hfin, (h hne).1,
    (h hne).2, warpPointChecked_of_finite p pairs alpha hne hfin⟩

/-- Witness for C12 as the code has it: the single pair `flippedPair`, the point `(3,5)`,
ratio 1/4. -/
theorem warpPoint_weight_sums_pos_witness :
    ([flippedPair] ≠ [] ∧
      (∀ pair ∈ [flippedPair], ∃ P Q R S : Point2d, P ≠ Q ∧ R ≠ S ∧
        pair = ⟨FeatureLine.fromPoints P Q, FeatureLine.fromPoints R S⟩) ∧
      ((0 : ℝ) ≤ 1 / 4 ∧ (1 / 4 : ℝ) ≤ 1)) ∧
    ∃ acc, warpSumsChecked ⟨3, 5⟩ [flippedPair] (1 / 4) = some acc ∧
      0 < acc.w_source_sum ∧ 0 < acc.w_dest_sum ∧
      warpPointChecked ⟨3, 5⟩ [flippedPair] (1 / 4)
        = some (Point2d.divr acc.p_source_sum acc.w_source_sum,
            Point2d.divr acc.p_dest_sum acc.w_dest_sum) := by
  have hne1 : (⟨0, 1⟩ : Point2d) ≠ ⟨0, 0⟩ := fun h => by
    have := congrArg Point2d.y h
    norm_num at this
  have hne2 : (⟨1, 0⟩ : Point2d) ≠ ⟨0, 0⟩ := fun h => by
    have := congrArg Point2d.x h
    norm_num at this
  have hwf : ∀ pair ∈ [flippedPair], ∃ P Q R S : Point2d, P ≠ Q ∧ R ≠ S ∧
      pair = ⟨FeatureLine.fromPoints P Q, FeatureLine.fromPoints R S⟩ := by
    intro pair hp
    rw [List.mem_singleton] at hp
    exact ⟨⟨0, 1⟩, ⟨0, 0⟩, ⟨1, 0⟩, ⟨0, 0⟩, hne1, hne2, hp⟩
  have hu : (0 : ℝ) ≤ 1 / 4 ∧ (1 / 4 : ℝ) ≤ 1 := by constructor <;> norm_num
  exact ⟨⟨List.cons_ne_nil _ _, hwf, hu⟩,
    warpPoint_weight_sums_pos ⟨3, 5⟩ [flippedPair] (1 / 4) (List.cons_ne_nil _ _) hwf
      (Or.inl hu)⟩

/-- Counterexample to C12 as stated: for the pair with source `(0,0)`-`(2,0)` and dest
`(0,0)`-`(1,0)`, both built from distinct endpoints, the line interpolated at ratio 2 has
length 0 and `P = Q`, so `computeU` and `computeV` divide zero by zero and the weight sums
are not numbers, let alone positive ones. -/
theorem warpPoint_weight_sums_undefined :
    ([shrinkPair] ≠ [] ∧
      ∃ P Q R S : Point2d, P ≠ Q ∧ R ≠ S ∧
        shrinkPair = ⟨FeatureLine.fromPoints P Q, FeatureLine.fromPoints R S⟩) ∧
    (shrinkPair.interpolateLine 2).1.length = 0 ∧
    (shrinkPair.interpolateLine 2).1.P = (shrinkPair.interpolateLine 2).1.Q ∧
    ¬ warpStepFinite 2 shrinkPair ∧
    warpSumsChecked ⟨1, 1⟩ [shrinkPair] 2 = none ∧
    ¬ ∃ acc, warpSumsChecked ⟨1, 1⟩ [shrinkPair] 2 = some acc ∧
      0 < acc.w_source_sum ∧ 0 < acc.w_dest_sum := by
  have hne1 : (⟨0, 0⟩ : Point2d) ≠ ⟨2, 0⟩ := fun h => by
    have := congrArg Point2d.x h
    norm_num at this
  have hne2 : (⟨0, 0⟩ : Point2d) ≠ ⟨1, 0⟩ := fun h => by
    have := congrArg Point2d.x h
    norm_num at this
  have hL := shrinkPair_interpolateLine_two
  have hnf : ¬ warpStepFinite 2 shrinkPair := by
    intro h
    apply h.1
    rw [hL]
  have hnone : warpSumsChecked ⟨1, 1⟩ [shrinkPair] 2 = none :=
    warpSumsChecked_of_not_finite _ _ _ (fun h => hnf (h shrinkPair (List.mem_singleton_self _)))
  refine ⟨⟨List.cons_ne_nil _ _, ⟨0, 0⟩, ⟨2, 0⟩, ⟨0, 0⟩, ⟨1, 0⟩, hne1, hne2, rfl⟩,
    by rw [hL], by rw [hL], hnf, hnone, ?_⟩
  rintro ⟨acc, ha, -⟩
  rw [hnone] at ha
  exact Option.noConfusion ha

/-- C13, as the code has it. `interpolateLine(alpha)` leaves `P`, `Q`, `M` and `length` of the
stored source and dest lines as they were; only the two stored angles can be overwritten,
by the reconciliation loops, and when the two angles are at most `π` apart the whole pair
is equal to what it was before the call. -/
theorem interpolateLine_frame (pr : FeatureLinePair) (alpha : ℝ) :
    (pr.interpolateLine alpha).2.source.P = pr.source.P ∧
    (pr.interpolateLine alpha).2.source.Q = pr.source.Q ∧
    (pr.interpolateLine alpha).2.source.M = pr.source.M ∧
    (pr.interpolateLine alpha).2.source.length = pr.source.length ∧
    (pr.interpolateLine alpha).2.dest.P = pr.dest.P ∧
    (pr.interpolateLine alpha).2.dest.Q = pr.dest.Q ∧
    (pr.interpolateLine alpha).2.dest.M = pr.dest.M ∧
    (pr.interpolateLine alpha).2.dest.length = pr.dest.length ∧
    (|pr.source.angle - pr.dest.angle| ≤ Real.pi → (pr.interpolateLine alpha).2 = pr) := by
  refine ⟨rfl, rfl, rfl, rfl, rfl, rfl, rfl, rfl, ?_⟩
  intro h
  rw [FeatureLinePair.interpolateLine_of_close pr alpha h]

/-- Counterexample to C13 as stated: after `interpolateLine(0)` on `flippedPair` the stored
source angle is `π/2`; it was `-π/2` before the call. -/
theorem interpolateLine_modifies_pair :
    flippedPair.source.angle = -(Real.pi / 2) ∧
    (flippedPair.interpolateLine 0).2.source.angle = Real.pi / 2 ∧
    (flippedPair.interpolateLine 0).2.source.angle ≠ flippedPair.source.angle ∧
    (flippedPair.interpolateLine 0).2 ≠ flippedPair := by
  have hpi := Real.pi_pos
  have h1 : flippedPair.source.angle = -(Real.pi / 2) := by rw [flippedPair_source]
  have h2 : (flippedPair.interpolateLine 0).2.source.angle = Real.pi / 2 := by
    rw [flippedPair_interpolateLine_zero]
  have h3 : (flippedPair.interpolateLine 0).2.source.angle ≠ flippedPair.source.angle := by
    rw [h1, h2]; intro h; linarith
  exact ⟨h1, h2, h3, fun h => h3 (by rw [h])⟩

/-- C14. The two constructors agree: for `P ≠ Q` and `L = FeatureLine(P, Q)` (whose angle is
`atan2` of `Q - P`), the line `FeatureLine(L.M, L.length, L.angle)` has the same `P`, `Q`,
`M`, `length` and `angle` as `L`. -/
theorem fromPolar_agrees_with_fromPoints (P Q : Point2d) (h : P ≠ Q) :
    (FeatureLine.fromPoints P Q).angle = atan2 (Q.y - P.y) (Q.x - P.x) ∧
    0 < (FeatureLine.fromPoints P Q).length ∧
    (FeatureLine.fromPolar (FeatureLine.fromPoints P Q).M (FeatureLine.fromPoints P Q).length
      (FeatureLine.fromPoints P Q).angle).P = (FeatureLine.fromPoints P Q).P ∧
    (FeatureLine.fromPolar (FeatureLine.fromPoints P Q).M (FeatureLine.fromPoints P Q).length
      (FeatureLine.fromPoints P Q).angle).Q = (FeatureLine.fromPoints P Q).Q ∧
    (FeatureLine.fromPolar (FeatureLine.fromPoints P Q).M (FeatureLine.fromPoints P Q).length
      (FeatureLine.fromPoints P Q).angle).M = (FeatureLine.fromPoints P Q).M ∧
    (FeatureLine.fromPolar (FeatureLine.fromPoints P Q).M (FeatureLine.fromPoints P Q).length
      (FeatureLine.fromPoints P Q).angle).length = (FeatureLine.fromPoints P Q).length ∧
    (FeatureLine.fromPolar (FeatureLine.fromPoints P Q).M (FeatureLine.fromPoints P Q).length
      (FeatureLine.fromPoints P Q).angle).angle = (FeatureLine.fromPoints P Q).angle := by
  rw [FeatureLine.fromPolar_fromPoints]
  exact ⟨rfl, FeatureLine.fromPoints_length_pos h, rfl, rfl, rfl, rfl, rfl⟩

/-- Witness for C14: the line from `(0,0)` to `(3,4)` is rebuilt with the same endpoints. -/
theorem fromPolar_agrees_with_fromPoints_witness :
    (⟨0, 0⟩ : Point2d) ≠ ⟨3, 4⟩ ∧
    (FeatureLine.fromPolar (FeatureLine.fromPoints ⟨0, 0⟩ ⟨3, 4⟩).M
      (FeatureLine.fromPoints ⟨0, 0⟩ ⟨3, 4⟩).length
      (FeatureLine.fromPoints ⟨0, 0⟩ ⟨3, 4⟩).angle).P = ⟨0, 0⟩ ∧
    (FeatureLine.fromPolar (FeatureLine.fromPoints ⟨0, 0⟩ ⟨3, 4⟩).M
      (FeatureLine.fromPoints ⟨0, 0⟩ ⟨3, 4⟩).length
      (FeatureLine.fromPoints ⟨0, 0⟩ ⟨3, 4⟩).angle).Q = ⟨3, 4⟩ := by
  have hne : (⟨0, 0⟩ : Point2d) ≠ ⟨3, 4⟩ := fun h => by
    have := congrArg Point2d.x h
    norm_num at this
  obtain ⟨-, -, hP, hQ, -⟩ := fromPolar_agrees_with_fromPoints ⟨0, 0⟩ ⟨3, 4⟩ hne
  exact ⟨hne, hP, hQ⟩

/-- C15. Angle reconciliation reaches the shorter path: for every pair of angles the two
loops at the start of `interpolateLine` terminate (the first runs at most
`⌈(source.angle - dest.angle) / π⌉` times, the second at most `⌈(dest.angle - source.angle) / π⌉`
times for the `dest.angle` the first loop left), each run adds `π`, afterwards
`|source.angle - dest.angle| ≤ π`, and when both angles start in `(-π, π]` at most one
addition of `π` is performed in total. -/
theorem interpolateLine_reconciles (pr : FeatureLinePair) (alpha : ℝ) :
    addPiCount pr.source.angle pr.dest.angle
      ≤ Int.toNat ⌈(pr.source.angle - pr.dest.angle) / Real.pi⌉ ∧
    addPiCount (pr.interpolateLine alpha).2.dest.angle pr.source.angle
      ≤ Int.toNat ⌈((pr.interpolateLine alpha).2.dest.angle - pr.source.angle) / Real.pi⌉ ∧
    (pr.interpolateLine alpha).2.dest.angle
      = pr.dest.angle + addPiCount pr.source.angle pr.dest.angle * Real.pi ∧
    (pr.interpolateLine alpha).2.source.angle
      = pr.source.angle
        + addPiCount (pr.interpolateLine alpha).2.dest.angle pr.source.angle * Real.pi ∧
    |(pr.interpolateLine alpha).2.source.angle - (pr.interpolateLine alpha).2.dest.angle|
      ≤ Real.pi ∧
    (-Real.pi < pr.source.angle ∧ pr.source.angle ≤ Real.pi →
      -Real.pi < pr.dest.angle ∧ pr.dest.angle ≤ Real.pi →
      addPiCount pr.source.angle pr.dest.angle
        + addPiCount (pr.interpolateLine alpha).2.dest.angle pr.source.angle ≤ 1) :=
  ⟨addPiCount_le_ceil _ _, addPiCount_le_ceil _ _,
    FeatureLinePair.interpolateLine_angles pr alpha⟩

/-- C16, as the code has it. In-bounds sampling after clamping: for `rows ≥ 1`, `cols ≥ 1` and
any point `p`, the four positions that `bilinearColor` reads at `q = clipPoint(p, rows, cols)`
have `0 ≤ row ≤ rows - 1` and `0 ≤ column ≤ cols - 1`; hence on two rasters of that size,
for a non-empty list none of whose runs in `warpPoint` divides by zero, all the reads
succeed, every pixel computation of `warpImage` returns a colour and `warpImage` returns a
raster. -/
theorem warpImage_reads_inside (p : Point2d) (rows cols : ℤ) (hr : 1 ≤ rows) (hc : 1 ≤ cols)
    (source dest : Mat) (pairs : List FeatureLinePair) (alpha : ℝ)
    (hsr : (source.rows : ℤ) = rows) (hsc : (source.cols : ℤ) = cols)
    (hdr : dest.rows = source.rows) (hdc : dest.cols = source.cols)
    (hne : pairs ≠ []) (hfin : ∀ pair ∈ pairs, warpStepFinite alpha pair) :
    (∀ rc ∈ bilinearReads (clipPoint p rows cols),
      0 ≤ rc.1 ∧ rc.1 ≤ rows - 1 ∧ 0 ≤ rc.2 ∧ rc.2 ≤ cols - 1) ∧
    (∀ rc ∈ bilinearReads (clipPoint p rows cols),
      (source.at_ rc.1 rc.2).isSome ∧ (dest.at_ rc.1 rc.2).isSome) ∧
    (∃ c, bilinearColor source (clipPoint p rows cols) = some c) ∧
    (∃ c, bilinearColor dest (clipPoint p rows cols) = some c) ∧
    (∀ i j : ℕ, i < source.cols → j < source.rows →
      ∃ c, warpPixel source dest source.rows source.cols pairs alpha i j = some c) ∧
    ∃ out, warpImage source dest pairs alpha = some out := by
  have hb := bilinearReads_clipPoint p rows cols hr hc
  have hreads : ∀ rc ∈ bilinearReads (clipPoint p rows cols),
      (source.at_ rc.1 rc.2).isSome ∧ (dest.at_ rc.1 rc.2).isSome := by
    intro rc hrc
    obtain ⟨h1, h2, h3, h4⟩ := hb rc hrc
    rw [Mat.at_isSome_iff, Mat.at_isSome_iff, hdr, hdc]
    omega
  refine ⟨hb, hreads, ?_, ?_, ?_, _, warpImage_eq source dest pairs alpha hdr hdc hne hfin⟩
  · exact Option.isSome_iff_exists.mp
      ((bilinearColor_isSome_iff source _).mpr fun rc hrc => (hreads rc hrc).1)
  · exact Option.isSome_iff_exists.mp
      ((bilinearColor_isSome_iff dest _).mpr fun rc hrc => (hreads rc hrc).2)
  · intro i j hi hj
    obtain ⟨cs, cd, -, -, h⟩ := warpPixel_some source dest pairs alpha hdr hdc hne hfin i j hi hj
    exact ⟨_, h⟩

/-- Witness for C16 as the code has it: the point `(-5, 7)` and the 4×4 rasters `redRaster`,
`blueRaster` with the single pair `flippedPair` at ratio 1/2. -/
theorem warpImage_reads_inside_witness :
    ((1 : ℤ) ≤ 4 ∧ (redRaster.rows : ℤ) = 4 ∧ (redRaster.cols : ℤ) = 4 ∧
      blueRaster.rows = redRaster.rows ∧ blueRaster.cols = redRaster.cols ∧
      [flippedPair] ≠ [] ∧ ∀ pair ∈ [flippedPair], warpStepFinite (1 / 2) pair) ∧
    (∀ rc ∈ bilinearReads (clipPoint ⟨-5, 7⟩ 4 4),
      0 ≤ rc.1 ∧ rc.1 ≤ 4 - 1 ∧ 0 ≤ rc.2 ∧ rc.2 ≤ 4 - 1) ∧
    ∃ out, warpImage redRaster blueRaster [flippedPair] (1 / 2) = some out := by
  have hfin := flippedPair_finite (1 / 2) (by norm_num) (by norm_num)
  obtain ⟨h1, -, -, -, -, h6⟩ := warpImage_reads_inside ⟨-5, 7⟩ 4 4 (by decide) (by decide)
    redRaster blueRaster [flippedPair] (1 / 2) rfl rfl rfl rfl (List.cons_ne_nil _ _) hfin
  exact ⟨⟨by decide, rfl, rfl, rfl, rfl, List.cons_ne_nil _ _, hfin⟩, h1, h6⟩

/-- Counterexample to C16 as stated: on the 4×4 rasters with the single pair whose source
line is the point `(0,0)` (length 0), the mapper has no point for pixel `(0,0)` at ratio
1/2, the sample of that pixel fails and `warpImage` returns no raster. -/
theorem warpImage_read_outside :
    ((1 : ℕ) ≤ redRaster.rows ∧ 1 ≤ redRaster.cols ∧
      blueRaster.rows = redRaster.rows ∧ blueRaster.cols = redRaster.cols) ∧
    pointPair.source.P = pointPair.source.Q ∧ pointPair.source.length = 0 ∧
    warpPointChecked ⟨0, 0⟩ [pointPair] (1 / 2) = none ∧
    warpPixel redRaster blueRaster 4 4 [pointPair] (1 / 2) 0 0 = none ∧
    warpImage redRaster blueRaster [pointPair] (1 / 2) = none := by
  have hS := pointPair_source
  have hnf : ¬ ∀ pair ∈ [pointPair], warpStepFinite (1 / 2) pair := by
    intro h
    apply (h pointPair (List.mem_singleton_self _)).2.1
    rw [hS]
  have h := warpPointChecked_of_not_finite ⟨0, 0⟩ [pointPair] (1 / 2) hnf
  refine ⟨⟨by decide, by decide, rfl, rfl⟩, by rw [hS], by rw [hS], h, ?_,
    warpImage_none redRaster blueRaster [pointPair] (1 / 2) (by decide) (by decide) h⟩
  unfold warpPixel
  simp only [Nat.cast_zero, h, Option.none_bind]

/-- C17. Interpolation preserves line validity: for a pair whose source and dest lines have
`length > 0` and `alpha` in `[0, 1]`, the line returned by `interpolateLine(alpha)` has
`length > 0`, distinct endpoints with `|Q - P| = length`, and `M = (P + Q) / 2`. -/
theorem interpolateLine_valid (pr : FeatureLinePair) (alpha : ℝ)
    (hs : 0 < pr.source.length) (hd : 0 < pr.dest.length) (h0 : 0 ≤ alpha) (h1 : alpha ≤ 1) :
    0 < (pr.interpolateLine alpha).1.length ∧
    (pr.interpolateLine alpha).1.P ≠ (pr.interpolateLine alpha).1.Q ∧
    Point2d.norm (Point2d.sub (pr.interpolateLine alpha).1.Q (pr.interpolateLine alpha).1.P)
      = (pr.interpolateLine alpha).1.length ∧
    (pr.interpolateLine alpha).1.M
      = Point2d.divr (Point2d.add (pr.interpolateLine alpha).1.P
          (pr.interpolateLine alpha).1.Q) 2 := by
  have hlen : 0 < (pr.interpolateLine alpha).1.length := by
    show 0 < (1 - alpha) * pr.source.length + alpha * pr.dest.length
    rcases eq_or_lt_of_le h0 with h | h
    · rw [← h]; simpa using hs
    · have : 0 ≤ (1 - alpha) * pr.source.length :=
        mul_nonneg (by linarith) (le_of_lt hs)
      have := mul_pos h hd
      linarith
  have hnorm : Point2d.norm (Point2d.sub (pr.interpolateLine alpha).1.Q
      (pr.interpolateLine alpha).1.P) = (pr.interpolateLine alpha).1.length := by
    have hsq : ∀ (l t : ℝ), 0 ≤ l →
        Real.sqrt ((l / 2 * Real.cos t + l / 2 * Real.cos t)
            * (l / 2 * Real.cos t + l / 2 * Real.cos t)
          + (l / 2 * Real.sin t + l / 2 * Real.sin t)
            * (l / 2 * Real.sin t + l / 2 * Real.sin t)) = l := by
      intro l t hl
      have e : (l / 2 * Real.cos t + l / 2 * Real.cos t)
            * (l / 2 * Real.cos t + l / 2 * Real.cos t)
          + (l / 2 * Real.sin t + l / 2 * Real.sin t)
            * (l / 2 * Real.sin t + l / 2 * Real.sin t) = l * l := by
        have := Real.sin_sq_add_cos_sq t
        linear_combination (l * l) * this
      rw [e, Real.sqrt_mul_self hl]
    have hl0 := le_of_lt hlen
    simp only [FeatureLinePair.interpolateLine, FeatureLine.fromPolar, Point2d.norm,
      Point2d.sub] at hl0 ⊢
    have e2 : ∀ m d : ℝ, m + d - (m - d) = d + d := by intro m d; ring
    simp only [e2]
    exact hsq _ _ hl0
  refine ⟨hlen, ?_, hnorm, ?_⟩
  · intro hPQ
    rw [← hPQ] at hnorm
    have hz : Point2d.norm (Point2d.sub (pr.interpolateLine alpha).1.P
        (pr.interpolateLine alpha).1.P) = 0 := by
      simp [Point2d.norm, Point2d.sub]
    rw [hz] at hnorm
    linarith
  · ext <;> simp only [FeatureLinePair.interpolateLine, FeatureLine.fromPolar, Point2d.divr,
      Point2d.add] <;> ring

/-- Witness for C17: `flippedPair` at ratio 1/2. -/
theorem interpolateLine_valid_witness :
    (0 < flippedPair.source.length ∧ 0 < flippedPair.dest.length ∧
      (0 : ℝ) ≤ 1 / 2 ∧ (1 / 2 : ℝ) ≤ 1) ∧
    0 < (flippedPair.interpolateLine (1 / 2)).1.length ∧
    (flippedPair.interpolateLine (1 / 2)).1.P ≠ (flippedPair.interpolateLine (1 / 2)).1.Q := by
  have hs : 0 < flippedPair.source.length := by rw [flippedPair_source]; norm_num
  have hd : 0 < flippedPair.dest.length := by rw [flippedPair_dest]; norm_num
  obtain ⟨h1, h2, -, -⟩ := interpolateLine_valid flippedPair (1 / 2) hs hd
    (by norm_num) (by norm_num)
  exact ⟨⟨hs, hd, by norm_num, by norm_num⟩, h1, h2⟩

/-- C18. The distance used by `computeWeight` is the distance to the segment: for a line
built from endpoints `P ≠ Q` and any point `X`, the value `dist` chosen by the three-way
branch on `u` is attained at a point `P + t(Q - P)` with `t` in `[0, 1]` and is at most the
distance from `X` to every such point. -/
theorem weightDist_is_segment_distance (P Q X : Point2d) (h : P ≠ Q) :
    (∃ t : ℝ, 0 ≤ t ∧ t ≤ 1 ∧
      (FeatureLine.fromPoints P Q).weightDist X
        = Point2d.norm (Point2d.sub X (Point2d.add P (Point2d.smul t (Point2d.sub Q P))))) ∧
    ∀ t : ℝ, 0 ≤ t → t ≤ 1 →
      (FeatureLine.fromPoints P Q).weightDist X
        ≤ Point2d.norm (Point2d.sub X (Point2d.add P (Point2d.smul t (Point2d.sub Q P)))) := by
  have hpos := Point2d.sub_ne_zero h
  have hn : ∀ t : ℝ,
      Point2d.norm (Point2d.sub X (Point2d.add P (Point2d.smul t (Point2d.sub Q P))))
        = Real.sqrt ((FeatureLine.fromPoints P Q).computeV X
            * (FeatureLine.fromPoints P Q).computeV X
          + ((Q.x - P.x) * (Q.x - P.x) + (Q.y - P.y) * (Q.y - P.y))
            * ((t - (FeatureLine.fromPoints P Q).computeU X)
              * (t - (FeatureLine.fromPoints P Q).computeU X))) := by
    intro t
    rw [← FeatureLine.sq_dist_param P Q X t h]
    rfl
  have hQ : Point2d.norm (Point2d.sub X (FeatureLine.fromPoints P Q).Q)
      = Point2d.norm (Point2d.sub X (Point2d.add P (Point2d.smul 1 (Point2d.sub Q P)))) := by
    congr 1
    ext <;> simp [Point2d.sub, Point2d.add, Point2d.smul, FeatureLine.fromPoints]
  have hP : Point2d.norm (Point2d.sub X (FeatureLine.fromPoints P Q).P)
      = Point2d.norm (Point2d.sub X (Point2d.add P (Point2d.smul 0 (Point2d.sub Q P)))) := by
    congr 1
    ext <;> simp [Point2d.sub, Point2d.add, Point2d.smul, FeatureLine.fromPoints]
  have hmono : ∀ s t : ℝ,
      (s - (FeatureLine.fromPoints P Q).computeU X) * (s - (FeatureLine.fromPoints P Q).computeU X)
        ≤ (t - (FeatureLine.fromPoints P Q).computeU X)
          * (t - (FeatureLine.fromPoints P Q).computeU X) →
      Point2d.norm (Point2d.sub X (Point2d.add P (Point2d.smul s (Point2d.sub Q P))))
        ≤ Point2d.norm (Point2d.sub X (Point2d.add P (Point2d.smul t (Point2d.sub Q P)))) := by
    intro s t hst
    rw [hn s, hn t]
    apply Real.sqrt_le_sqrt
    have := mul_le_mul_of_nonneg_left hst (le_of_lt hpos)
    linarith
  unfold FeatureLine.weightDist
  simp only
  split_ifs with h1 h2
  · rw [hQ]
    refine ⟨⟨1, by norm_num, le_refl _, rfl⟩, fun t _ ht1 => hmono 1 t ?_⟩
    nlinarith
  · rw [hP]
    refine ⟨⟨0, le_refl _, by norm_num, rfl⟩, fun t ht0 _ => hmono 0 t ?_⟩
    nlinarith
  · have hu0 : 0 ≤ (FeatureLine.fromPoints P Q).computeU X := not_lt.mp h2
    have hu1 : (FeatureLine.fromPoints P Q).computeU X ≤ 1 := not_lt.mp h1
    have hv : |(FeatureLine.fromPoints P Q).computeV X|
        = Point2d.norm (Point2d.sub X (Point2d.add P
            (Point2d.smul ((FeatureLine.fromPoints P Q).computeU X) (Point2d.sub Q P)))) := by
      rw [hn, sub_self, mul_zero, mul_zero, add_zero, ← sq, Real.sqrt_sq_eq_abs]
    rw [hv]
    exact ⟨⟨_, hu0, hu1, rfl⟩, fun t _ _ => hmono _ t (by
      rw [sub_self, mul_zero]; exact mul_self_nonneg _)⟩

/-- Witness for C18: the line from `(0,0)` to `(3,4)` and the point `(1,2)`. -/
theorem weightDist_is_segment_distance_witness :
    (⟨0, 0⟩ : Point2d) ≠ ⟨3, 4⟩ ∧
    ∀ t : ℝ, 0 ≤ t → t ≤ 1 →
      (FeatureLine.fromPoints ⟨0, 0⟩ ⟨3, 4⟩).weightDist ⟨1, 2⟩
        ≤ Point2d.norm (Point2d.sub ⟨1, 2⟩
            (Point2d.add ⟨0, 0⟩ (Point2d.smul t (Point2d.sub ⟨3, 4⟩ ⟨0, 0⟩)))) := by
  have hne : (⟨0, 0⟩ : Point2d) ≠ ⟨3, 4⟩ := fun h => by
    have := congrArg Point2d.x h
    norm_num at this
  exact ⟨hne, (weightDist_is_segment_distance ⟨0, 0⟩ ⟨3, 4⟩ ⟨1, 2⟩ hne).2⟩

/-- C19. Pure translation is interpolated linearly: for a single pair whose dest line is the
source line (endpoints `P ≠ Q`) translated by `t`, every point `p` and every ratio `alpha`,
`warpPoint(p, [pair], alpha)` returns the source coordinate `p - alpha * t` and the dest
coordinate `p + (1 - alpha) * t`. -/
theorem warpPoint_translation (P Q t p : Point2d) (alpha : ℝ) (h : P ≠ Q) :
    warpPoint p
        [⟨FeatureLine.fromPoints P Q, FeatureLine.fromPoints (Point2d.add P t) (Point2d.add Q t)⟩]
        alpha
      = (Point2d.sub p (Point2d.smul alpha t), Point2d.add p (Point2d.smul (1 - alpha) t)) := by
  have hpi := Real.pi_pos
  have hne : ∀ s : Point2d, Point2d.add P s ≠ Point2d.add Q s := by
    intro s hs
    apply h
    have hx := congrArg Point2d.x hs
    have hy := congrArg Point2d.y hs
    simp only [Point2d.add] at hx hy
    ext <;> linarith
  have hT := FeatureLine.fromPoints_translate P Q t
  have hI : FeatureLinePair.interpolateLine
      ⟨FeatureLine.fromPoints P Q, FeatureLine.fromPoints (Point2d.add P t) (Point2d.add Q t)⟩ alpha
      = (FeatureLine.fromPoints (Point2d.add P (Point2d.smul alpha t))
            (Point2d.add Q (Point2d.smul alpha t)),
          ⟨FeatureLine.fromPoints P Q,
            FeatureLine.fromPoints (Point2d.add P t) (Point2d.add Q t)⟩) := by
    have ha : (FeatureLine.fromPoints (Point2d.add P t) (Point2d.add Q t)).angle
        = (FeatureLine.fromPoints P Q).angle := by rw [hT]
    have hl : (FeatureLine.fromPoints (Point2d.add P t) (Point2d.add Q t)).length
        = (FeatureLine.fromPoints P Q).length := by rw [hT]
    have hm : (FeatureLine.fromPoints (Point2d.add P t) (Point2d.add Q t)).M
        = Point2d.add (FeatureLine.fromPoints P Q).M t := by rw [hT]
    have hle : |(FeatureLine.fromPoints P Q).angle
        - (FeatureLine.fromPoints (Point2d.add P t) (Point2d.add Q t)).angle| ≤ Real.pi := by
      rw [ha, sub_self, abs_zero]; exact le_of_lt hpi
    have hM : Point2d.add (Point2d.smul (1 - alpha) (FeatureLine.fromPoints P Q).M)
        (Point2d.smul alpha (Point2d.add (FeatureLine.fromPoints P Q).M t))
        = Point2d.add (FeatureLine.fromPoints P Q).M (Point2d.smul alpha t) := by
      ext <;> simp only [Point2d.add, Point2d.smul] <;> ring
    have hlen : (1 - alpha) * (FeatureLine.fromPoints P Q).length
        + alpha * (FeatureLine.fromPoints P Q).length = (FeatureLine.fromPoints P Q).length := by
      ring
    have hang : (1 - alpha) * (FeatureLine.fromPoints P Q).angle
        + alpha * (FeatureLine.fromPoints P Q).angle = (FeatureLine.fromPoints P Q).angle := by
      ring
    have hmid := FeatureLine.fromPolar_fromPoints (Point2d.add P (Point2d.smul alpha t))
      (Point2d.add Q (Point2d.smul alpha t))
    rw [FeatureLine.fromPoints_translate P Q (Point2d.smul alpha t)] at hmid
    simp only at hmid
    rw [FeatureLinePair.interpolateLine_of_close _ alpha hle]
    simp only [ha, hl, hm, hM, hlen, hang, hmid]
    rw [FeatureLine.fromPoints_translate P Q (Point2d.smul alpha t)]
  have hinv := FeatureLine.computePoint_computeUV_of_length
    (FeatureLine.fromPoints (Point2d.add P (Point2d.smul alpha t))
      (Point2d.add Q (Point2d.smul alpha t))) p rfl (hne _)
  rw [FeatureLine.computePoint_translate] at hinv
  have hsrc : (FeatureLine.fromPoints P Q).computePoint
      ((FeatureLine.fromPoints (Point2d.add P (Point2d.smul alpha t))
        (Point2d.add Q (Point2d.smul alpha t))).computeU p)
      ((FeatureLine.fromPoints (Point2d.add P (Point2d.smul alpha t))
        (Point2d.add Q (Point2d.smul alpha t))).computeV p)
      = Point2d.sub p (Point2d.smul alpha t) := Point2d.eq_sub_of_add_eq _ _ _ hinv
  rw [warpPoint_singleton]
  · simp only [hI, FeatureLine.computePoint_translate, hsrc]
    congr 1
    ext <;> simp only [Point2d.sub, Point2d.add, Point2d.smul] <;> ring
  · exact ne_of_gt (FeatureLine.computeWeight_pos_of_length _ _
      (FeatureLine.fromPoints_length_pos h))
  · apply ne_of_gt
    apply FeatureLine.computeWeight_pos_of_length
    rw [hI]
    exact FeatureLine.fromPoints_length_pos (hne t)

/-- Witness for C19: the line from `(0,0)` to `(3,4)` moved by `(1,1)`, the point `(2,5)`,
ratio 1/4. -/
theorem warpPoint_translation_witness :
    (⟨0, 0⟩ : Point2d) ≠ ⟨3, 4⟩ ∧
    warpPoint ⟨2, 5⟩
        [⟨FeatureLine.fromPoints ⟨0, 0⟩ ⟨3, 4⟩,
          FeatureLine.fromPoints (Point2d.add ⟨0, 0⟩ ⟨1, 1⟩) (Point2d.add ⟨3, 4⟩ ⟨1, 1⟩)⟩]
        (1 / 4)
      = (Point2d.sub ⟨2, 5⟩ (Point2d.smul (1 / 4) ⟨1, 1⟩),
         Point2d.add ⟨2, 5⟩ (Point2d.smul (1 - 1 / 4) ⟨1, 1⟩)) := by
  have hne : (⟨0, 0⟩ : Point2d) ≠ ⟨3, 4⟩ := fun h => by
    have := congrArg Point2d.x h
    norm_num at this
  exact ⟨hne, warpPoint_translation ⟨0, 0⟩ ⟨3, 4⟩ ⟨1, 1⟩ ⟨2, 5⟩ (1 / 4) hne⟩

/-- C20. Bilinear sampling never leaves the range of its neighbours: for an in-bounds point
`p` (`0 ≤ p.x ≤ cols - 1`, `0 ≤ p.y ≤ rows - 1`) the four reads succeed and each channel of
`bilinearColor(img, p)` lies between the minimum and the maximum of that channel over the
four colours read. -/
theorem bilinearColor_between_neighbours (img : Mat) (p : Point2d)
    (hx0 : 0 ≤ p.x) (hx1 : p.x ≤ (img.cols : ℝ) - 1)
    (hy0 : 0 ≤ p.y) (hy1 : p.y ≤ (img.rows : ℝ) - 1) :
    ∃ topLeft topRight bottomLeft bottomRight c : Vec3b,
      img.at_ ⌊p.y⌋ ⌊p.x⌋ = some topLeft ∧ img.at_ ⌊p.y⌋ ⌈p.x⌉ = some topRight ∧
      img.at_ ⌈p.y⌉ ⌊p.x⌋ = some bottomLeft ∧ img.at_ ⌈p.y⌉ ⌈p.x⌉ = some bottomRight ∧
      bilinearColor img p = some c ∧
      ∀ k : Fin 3,
        min (min (topLeft k).val (topRight k).val) (min (bottomLeft k).val (bottomRight k).val)
            ≤ (c k).val ∧
        (c k).val
          ≤ max (max (topLeft k).val (topRight k).val)
              (max (bottomLeft k).val (bottomRight k).val) := by
  have hx1' : p.x ≤ (((img.cols : ℤ) - 1 : ℤ) : ℝ) := by push_cast; exact hx1
  have hy1' : p.y ≤ (((img.rows : ℤ) - 1 : ℤ) : ℝ) := by push_cast; exact hy1
  obtain ⟨⟨xf0, xf1⟩, ⟨xc0, xc1⟩⟩ := floor_ceil_inside hx0 hx1'
  obtain ⟨⟨yf0, yf1⟩, ⟨yc0, yc1⟩⟩ := floor_ceil_inside hy0 hy1'
  have hb : bilinearColor img p = some (Vec3d.toVec3b
      ((1 - (p.y - ⌊p.y⌋)) • ((1 - (p.x - ⌊p.x⌋)) • (img.data ⌊p.y⌋.toNat ⌊p.x⌋.toNat).toVec3d
          + (p.x - ⌊p.x⌋) • (img.data ⌊p.y⌋.toNat ⌈p.x⌉.toNat).toVec3d)
        + (p.y - ⌊p.y⌋) • ((1 - (p.x - ⌊p.x⌋)) • (img.data ⌈p.y⌉.toNat ⌊p.x⌋.toNat).toVec3d
          + (p.x - ⌊p.x⌋) • (img.data ⌈p.y⌉.toNat ⌈p.x⌉.toNat).toVec3d))) := by
    unfold bilinearColor
    simp only [Mat.at_of_inside img _ _ yf0 yf1 xf0 xf1, Mat.at_of_inside img _ _ yf0 yf1 xc0 xc1,
      Mat.at_of_inside img _ _ yc0 yc1 xf0 xf1, Mat.at_of_inside img _ _ yc0 yc1 xc0 xc1,
      Option.some_bind]
  refine ⟨_, _, _, _, _, Mat.at_of_inside img _ _ yf0 yf1 xf0 xf1,
    Mat.at_of_inside img _ _ yf0 yf1 xc0 xc1, Mat.at_of_inside img _ _ yc0 yc1 xf0 xf1,
    Mat.at_of_inside img _ _ yc0 yc1 xc0 xc1, hb, ?_⟩
  intro k
  simp only [Vec3d.toVec3b, Vec3b.toVec3d, Pi.add_apply, Pi.smul_apply, smul_eq_mul]
  exact bilinear_channel_between _ _ _ _ _ _ (Int.fract_nonneg p.x)
    (le_of_lt (Int.fract_lt_one p.x)) (Int.fract_nonneg p.y) (le_of_lt (Int.fract_lt_one p.y))

/-- Witness for C20: the centre `(1/2, 1/2)` of the 2×2 raster `twoRowRaster`. -/
theorem bilinearColor_between_neighbours_witness :
    ((0 : ℝ) ≤ 1 / 2 ∧ (1 / 2 : ℝ) ≤ (twoRowRaster.cols : ℝ) - 1 ∧
      (1 / 2 : ℝ) ≤ (twoRowRaster.rows : ℝ) - 1) ∧
    ∃ topLeft topRight bottomLeft bottomRight c : Vec3b,
      twoRowRaster.at_ ⌊(1 / 2 : ℝ)⌋ ⌊(1 / 2 : ℝ)⌋ = some topLeft ∧
      twoRowRaster.at_ ⌊(1 / 2 : ℝ)⌋ ⌈(1 / 2 : ℝ)⌉ = some topRight ∧
      twoRowRaster.at_ ⌈(1 / 2 : ℝ)⌉ ⌊(1 / 2 : ℝ)⌋ = some bottomLeft ∧
      twoRowRaster.at_ ⌈(1 / 2 : ℝ)⌉ ⌈(1 / 2 : ℝ)⌉ = some bottomRight ∧
      bilinearColor twoRowRaster ⟨1 / 2, 1 / 2⟩ = some c ∧
      ∀ k : Fin 3,
        min (min (topLeft k).val (topRight k).val) (min (bottomLeft k).val (bottomRight k).val)
            ≤ (c k).val ∧
        (c k).val
          ≤ max (max (topLeft k).val (topRight k).val)
              (max (bottomLeft k).val (bottomRight k).val) := by
  have h0 : (0 : ℝ) ≤ 1 / 2 := by norm_num
  have hc : (1 / 2 : ℝ) ≤ (twoRowRaster.cols : ℝ) - 1 := by
    have e : twoRowRaster.cols = 2 := rfl
    rw [e]; norm_num
  have hr : (1 / 2 : ℝ) ≤ (twoRowRaster.rows : ℝ) - 1 := by
    have e : twoRowRaster.rows = 2 := rfl
    rw [e]; norm_num
  exact ⟨⟨h0, hc, hr⟩, bilinearColor_between_neighbours twoRowRaster ⟨1 / 2, 1 / 2⟩ h0 hc h0 hr⟩

end

end Morph
